import Mathlib

/-!
Verification of the base-URL path-joining module (`src/base_url.rs`).

The Rust module is a thin wrapper over the external `url` crate (a WHATWG URL
implementation).  We shallowly embed the parts of that crate the module uses:

* a URL value (scheme, userinfo, host, port, hierarchical-or-not path, query,
  fragment), where "cannot be a base" means the path is not hierarchical;
* `Url::parse` as a compositional WHATWG-style parser (scheme, authority,
  path/query/fragment splitting, percent-encoding with the crate's encode
  sets, default-port elision, lower-casing of scheme and host).  Host
  validation (IDNA, forbidden host code points) and the tab/newline
  stripping of the WHATWG preprocessor are not modelled;
* `PathSegmentsMut::pop_if_empty` and `PathSegmentsMut::extend` (the latter
  skips "." and ".." segments and percent-encodes with the
  (SPECIAL_)PATH_SEGMENT set, per the crate's documentation and source);
* `Url::set_path` and serialization.

On top of that, `BaseUrl`, `BaseUrl.append_path`, `BaseUrl.tryFrom`,
`BaseUrl.from_str`, `add_trailing_slash` and
`deserialize_url_with_trailing_slash` are translated directly from
`src/base_url.rs`.
-/

namespace FRU

/-- Character lists; the parser and serializer work on these, with `String`
only at the API boundary. -/
abbrev Chars := List Char

/-- ASCII lower-casing of a single character (as the url crate applies to
schemes and domain hosts). -/
def toLowerChar (c : Char) : Char :=
  if 65 ≤ c.toNat ∧ c.toNat ≤ 90 then Char.ofNat (c.toNat + 32) else c

/-- ASCII lower-casing of a character list. -/
def lowerChars (l : Chars) : Chars := l.map toLowerChar

/-- Upper-case hexadecimal digit for a value below 16. -/
def hexDigitChar (n : Nat) : Char :=
  if n < 10 then Char.ofNat (48 + n) else Char.ofNat (55 + n)

/-- UTF-8 bytes of a code point (standard 1-4 byte encoding). -/
def utf8Bytes (n : Nat) : List Nat :=
  if n < 128 then [n]
  else if n < 2048 then [192 + n / 64, 128 + n % 64]
  else if n < 65536 then [224 + n / 4096, 128 + n / 64 % 64, 128 + n % 64]
  else [240 + n / 262144, 128 + n / 4096 % 64, 128 + n / 64 % 64, 128 + n % 64]

/-- `%XX` percent-encoding of one byte. -/
def percentEncodeByte (b : Nat) : Chars := ['%', hexDigitChar (b / 16), hexDigitChar (b % 16)]

/-- Percent-encode one character against an encode set: characters in the set
(and all non-ASCII characters, which every set contains) become the
percent-encoding of their UTF-8 bytes. -/
def encodeChar (inSet : Char → Bool) (c : Char) : Chars :=
  if inSet c then ((utf8Bytes c.toNat).map percentEncodeByte).flatten else [c]

/-- Percent-encode a character list against an encode set. -/
def encodeWith (inSet : Char → Bool) (l : Chars) : Chars :=
  (l.map (encodeChar inSet)).flatten

/-- C0 controls, DEL and all non-ASCII: encoded by every encode set. -/
def mustEncodeBase (c : Char) : Bool := c.toNat < 32 || 127 ≤ c.toNat

/-- The fragment percent-encode set of the url crate. -/
def fragmentSet (c : Char) : Bool :=
  mustEncodeBase c || c == ' ' || c == '"' || c == '<' || c == '>' || c == '`'

/-- The PATH percent-encode set of the url crate. -/
def pathSet (c : Char) : Bool :=
  fragmentSet c || c == '#' || c == '?' || c == '{' || c == '}'

/-- The PATH_SEGMENT percent-encode set (PATH plus `/` and `%`), used by
`PathSegmentsMut::extend`. -/
def pathSegmentSet (c : Char) : Bool := pathSet c || c == '/' || c == '%'

/-- The SPECIAL_PATH_SEGMENT percent-encode set (PATH_SEGMENT plus `\`). -/
def specialPathSegmentSet (c : Char) : Bool := pathSegmentSet c || c == '\\'

/-- The QUERY percent-encode set of the url crate. -/
def querySet (c : Char) : Bool :=
  mustEncodeBase c || c == ' ' || c == '"' || c == '#' || c == '<' || c == '>'

/-- The SPECIAL_QUERY percent-encode set (QUERY plus `'`). -/
def specialQuerySet (c : Char) : Bool := querySet c || c == '\''

/-- The USERINFO percent-encode set of the url crate. -/
def userinfoSet (c : Char) : Bool :=
  pathSet c || c == '/' || c == ':' || c == ';' || c == '=' || c == '@' ||
    c == '[' || c == '\\' || c == ']' || c == '^' || c == '|'

/-- The C0-control percent-encode set, used for non-hierarchical paths. -/
def c0ControlSet (c : Char) : Bool := mustEncodeBase c

/-- Split at the first occurrence of a separator: returns the part before it
and, when the separator occurs, the part after it. -/
def splitAtFirst (sep : Char) : Chars → Chars × Option Chars
  | [] => ([], none)
  | c :: cs =>
    if c = sep then ([], some cs)
    else
      let r := splitAtFirst sep cs
      (c :: r.1, r.2)

/-- Split at the last occurrence of a separator, when it occurs. -/
def splitAtLast (sep : Char) : Chars → Option (Chars × Chars)
  | [] => none
  | c :: cs =>
    match splitAtLast sep cs with
    | some (a, b) => some (c :: a, b)
    | none => if c = sep then some ([], cs) else none

/-- Split on every occurrence of a separator (like Rust's `str::split`:
the result is never empty, and an empty input gives one empty piece). -/
def splitOnChar (sep : Char) : Chars → List Chars
  | [] => [[]]
  | c :: cs =>
    if c = sep then [] :: splitOnChar sep cs
    else
      match splitOnChar sep cs with
      | a :: rest => (c :: a) :: rest
      | [] => [[c]]

/-- Is the character an ASCII letter? -/
def isAlphaChar (c : Char) : Bool :=
  decide ((65 ≤ c.toNat ∧ c.toNat ≤ 90) ∨ (97 ≤ c.toNat ∧ c.toNat ≤ 122))

/-- Is the character an ASCII digit? -/
def isDigitChar (c : Char) : Bool := decide (48 ≤ c.toNat ∧ c.toNat ≤ 57)

/-- Characters allowed in a URL scheme after the first one. -/
def isSchemeChar (c : Char) : Bool :=
  isAlphaChar c || isDigitChar c || c == '+' || c == '-' || c == '.'

/-- Does a character list start with an ASCII letter? -/
def headIsAlpha : Chars → Bool
  | c :: _ => isAlphaChar c
  | [] => false

/-- Split off the scheme (everything before the first `:`), validating and
lower-casing it.  Returns `none` when the input has no valid scheme, in which
case `Url::parse` fails with `RelativeUrlWithoutBase`. -/
def splitScheme (l : Chars) : Option (Chars × Chars) :=
  match splitAtFirst ':' l with
  | (pre, some rest) =>
    if headIsAlpha pre ∧ pre.all isSchemeChar then some (lowerChars pre, rest) else none
  | (_, none) => none

/-- The errors of `url::ParseError` that this embedding can produce. -/
inductive ParseError
  | RelativeUrlWithoutBase
  | EmptyHost
  | InvalidPort
  | InvalidIpv6Address
deriving DecidableEq

/-- A URL path: hierarchical (a list of segments, serialized with a `/`
before each one) or not (the URL "cannot be a base"). -/
inductive UrlPath
  | segments (segs : List Chars)
  | nonBase (p : Chars)
deriving DecidableEq

/-- The serialization of a path. -/
def UrlPath.chars : UrlPath → Chars
  | .segments segs => (segs.map (fun s => '/' :: s)).flatten
  | .nonBase p => p

/-- The embedded `url::Url` value. -/
structure Url where
  scheme : Chars
  username : Chars
  password : Option Chars
  host : Option Chars
  port : Option Nat
  path : UrlPath
  query : Option Chars
  fragment : Option Chars
deriving DecidableEq

/-- `Url::cannot_be_a_base`: true exactly when the path is not hierarchical. -/
def Url.cannot_be_a_base (u : Url) : Bool :=
  match u.path with
  | .nonBase _ => true
  | .segments _ => false

/-- The WHATWG special schemes. -/
def isSpecialScheme (sc : Chars) : Bool :=
  ["http", "https", "ws", "wss", "ftp", "file"].any (fun s => s.data == sc)

/-- Default ports of the special schemes. -/
def defaultPort (sc : Chars) : Option Nat :=
  if sc == "http".data || sc == "ws".data then some 80
  else if sc == "https".data || sc == "wss".data then some 443
  else if sc == "ftp".data then some 21
  else none

/-- A parsed port equal to the scheme's default port is not recorded. -/
def elideDefault (sc : Chars) (p : Option Nat) : Option Nat :=
  if p = defaultPort sc then none else p

/-- Numeric value of an ASCII digit. -/
def digitVal (c : Char) : Nat := c.toNat - 48

/-- Parse a port: empty means no port, otherwise decimal digits up to 65535. -/
def parsePortChars (l : Chars) : Except ParseError (Option Nat) :=
  if l = [] then .ok none
  else if l.all isDigitChar then
    if l.foldl (fun a c => 10 * a + digitVal c) 0 ≤ 65535 then
      .ok (some (l.foldl (fun a c => 10 * a + digitVal c) 0))
    else .error .InvalidPort
  else .error .InvalidPort

/-- What may follow a bracketed IPv6 host: nothing, or `:` and a port. -/
def parsePortTail (sc : Chars) (after : Chars) : Except ParseError (Option Nat) :=
  match after with
  | [] => .ok none
  | ':' :: p =>
    match parsePortChars p with
    | .error e => .error e
    | .ok port => .ok (elideDefault sc port)
  | _ => .error .InvalidIpv6Address

/-- Parse `host[:port]`, with `[...]` IPv6 bracket notation. -/
def parseHostPort (sc : Chars) (l : Chars) : Except ParseError (Chars × Option Nat) :=
  match l with
  | '[' :: rest =>
    match splitAtFirst ']' rest with
    | (_, none) => .error .InvalidIpv6Address
    | (inside, some after) =>
      match parsePortTail sc after with
      | .error e => .error e
      | .ok po => .ok ('[' :: inside ++ [']'], po)
  | _ =>
    match splitAtFirst ':' l with
    | (h, none) => .ok (lowerChars h, none)
    | (h, some p) =>
      match parsePortChars p with
      | .error e => .error e
      | .ok port => .ok (lowerChars h, elideDefault sc port)

/-- A parsed authority component. -/
structure Authority where
  username : Chars
  password : Option Chars
  host : Chars
  port : Option Nat
deriving DecidableEq

/-- Parse `[userinfo@]host[:port]`; the userinfo (split at the last `@`,
username before the first `:` of it) is percent-encoded with USERINFO. -/
def parseAuthority (sc : Chars) (auth : Chars) : Except ParseError Authority :=
  match splitAtLast '@' auth with
  | some (u, hp) =>
    match parseHostPort sc hp with
    | .error e => .error e
    | .ok (h, port) =>
      match splitAtFirst ':' u with
      | (us, none) => .ok ⟨encodeWith userinfoSet us, none, h, port⟩
      | (us, some pw) =>
        .ok ⟨encodeWith userinfoSet us, some (encodeWith userinfoSet pw), h, port⟩
  | none =>
    match parseHostPort sc auth with
    | .error e => .error e
    | .ok (h, port) => .ok ⟨[], none, h, port⟩

/-- Split `authority ++ path` at the first `/`; the path keeps its slash. -/
def splitAuthPath (l : Chars) : Chars × Chars :=
  match splitAtFirst '/' l with
  | (a, some rest) => (a, '/' :: rest)
  | (a, none) => (a, [])

/-- Split a path (empty, or starting with `/`) into percent-encoded
segments, as the WHATWG path state does. -/
def parsePathSegsChars (l : Chars) : List Chars :=
  match l with
  | [] => []
  | _ :: rest => (splitOnChar '/' rest).map (encodeWith pathSet)

/-- For special schemes `\` is a path separator; the parser treats it as `/`. -/
def replaceBackslashes (sp : Bool) (l : Chars) : Chars :=
  if sp then l.map (fun c => if c = '\\' then '/' else c) else l

/-- Prepend a `/` when the list does not already start with one. -/
def ensureLeadingSlash (l : Chars) : Chars :=
  match l with
  | '/' :: _ => l
  | _ => '/' :: l

/-- `Url::parse`, restricted to absolute URLs (no base), modelling the parts
of WHATWG parsing the repository exercises. -/
def parseUrl (input : String) : Except ParseError Url :=
  match splitScheme input.data with
  | none => .error .RelativeUrlWithoutBase
  | some (sc, rest) =>
    let sp := isSpecialScheme sc
    let bf := splitAtFirst '#' rest
    let bq := splitAtFirst '?' bf.1
    let beforeQuery := replaceBackslashes sp bq.1
    let q := bq.2.map (encodeWith (if sp then specialQuerySet else querySet))
    let f := bf.2.map (encodeWith fragmentSet)
    if sp then
      if sc = "file".data then
        match beforeQuery with
        | '/' :: '/' :: rest2 =>
          let pathPart := (splitAuthPath rest2).2
          match parseAuthority sc (splitAuthPath rest2).1 with
          | .error e => .error e
          | .ok a =>
            let segs := parsePathSegsChars pathPart
            .ok { scheme := sc, username := a.username, password := a.password,
                  host := some a.host, port := a.port,
                  path := .segments (if segs = [] then [[]] else segs),
                  query := q, fragment := f }
        | _ =>
          let segs := parsePathSegsChars (ensureLeadingSlash beforeQuery)
          .ok { scheme := sc, username := [], password := none, host := some [],
                port := none, path := .segments (if segs = [] then [[]] else segs),
                query := q, fragment := f }
      else
        let rest2 := beforeQuery.dropWhile (· = '/')
        let pathPart := (splitAuthPath rest2).2
        match parseAuthority sc (splitAuthPath rest2).1 with
        | .error e => .error e
        | .ok a =>
          if a.host = [] then .error .EmptyHost
          else
            let segs := parsePathSegsChars pathPart
            .ok { scheme := sc, username := a.username, password := a.password,
                  host := some a.host, port := a.port,
                  path := .segments (if segs = [] then [[]] else segs),
                  query := q, fragment := f }
    else
      match beforeQuery with
      | '/' :: '/' :: rest2 =>
        let pathPart := (splitAuthPath rest2).2
        match parseAuthority sc (splitAuthPath rest2).1 with
        | .error e => .error e
        | .ok a =>
          .ok { scheme := sc, username := a.username, password := a.password,
                host := some a.host, port := a.port,
                path := .segments (parsePathSegsChars pathPart),
                query := q, fragment := f }
      | '/' :: _ =>
        .ok { scheme := sc, username := [], password := none, host := none, port := none,
              path := .segments (parsePathSegsChars beforeQuery),
              query := q, fragment := f }
      | _ =>
        .ok { scheme := sc, username := [], password := none, host := none, port := none,
              path := .nonBase (encodeWith c0ControlSet beforeQuery),
              query := q, fragment := f }

/-- Decimal digits of a number (with enough fuel). -/
def natDigitsAux : Nat → Nat → Chars
  | 0, _ => []
  | fuel + 1, n =>
    if n < 10 then [Char.ofNat (48 + n)]
    else natDigitsAux fuel (n / 10) ++ [Char.ofNat (48 + n % 10)]

/-- Decimal representation of a number. -/
def natDigits (n : Nat) : Chars := natDigitsAux (n + 1) n

/-- An optional URL component with its leading separator (`?query`,
`#fragment`, `:password`). -/
def optPart (sep : Char) : Option Chars → Chars
  | some v => sep :: v
  | none => []

/-- The serialization of an explicit port (`:1234`). -/
def portPart : Option Nat → Chars
  | some n => ':' :: natDigits n
  | none => []

/-- The serialization of the userinfo section (`user:password@`), empty when
there is neither a username nor a password. -/
def userinfoPart (user : Chars) (pass : Option Chars) : Chars :=
  if user = [] ∧ pass = none then [] else user ++ optPart ':' pass ++ ['@']

/-- The WHATWG serialization of a URL value. -/
def Url.serializeChars (u : Url) : Chars :=
  u.scheme ++ ':' ::
  ((match u.host with
    | some h => '/' :: '/' :: (userinfoPart u.username u.password ++ h ++ portPart u.port)
    | none => []) ++
   u.path.chars ++ optPart '?' u.query ++ optPart '#' u.fragment)

/-- `Url`'s `Display`/`as_str` form. -/
def Url.serialize (u : Url) : String := ⟨u.serializeChars⟩

/-- Does a character list end with `/` (Rust's `str::ends_with('/')`)? -/
def endsWithSlash (l : Chars) : Bool := l.getLast? = some '/'

/-- `Url::set_path` on the character level: for a hierarchical URL the string
is re-parsed into segments (a missing leading `/` is added, `\` is a
separator for special schemes); only the path component changes. -/
def Url.setPathChars (u : Url) (p0 : Chars) : Url :=
  match u.path with
  | .nonBase _ => { u with path := .nonBase (encodeWith c0ControlSet p0) }
  | .segments _ =>
    { u with path := .segments (parsePathSegsChars
        (ensureLeadingSlash (replaceBackslashes (isSpecialScheme u.scheme) p0))) }

/-- `Url::set_path`. -/
def Url.set_path (u : Url) (p : String) : Url := u.setPathChars p.data

/-- `GenericCombinators::mutate` from `src/lib.rs`: apply an in-place
transformation and return the value. -/
def mutate (x : α) (f : α → α) : α := f x

/-- `add_trailing_slash` from `src/base_url.rs`: if the path does not end
with `/`, append `/` to it via `set_path`. -/
def add_trailing_slash (url : Url) : Url :=
  if ¬ endsWithSlash url.path.chars then url.set_path ⟨url.path.chars ++ ['/']⟩ else url

/-- The `BaseUrl` wrapper from `src/base_url.rs`. -/
structure BaseUrl where
  url : Url
deriving DecidableEq

/-- `BaseUrlParseError` from `src/base_url.rs`. -/
inductive BaseUrlParseError
  | UrlParseError (e : ParseError)
  | IsNotBaseUrl
deriving DecidableEq

/-- `impl TryFrom<Url> for BaseUrl`. -/
def BaseUrl.tryFrom (url : Url) : Except Unit BaseUrl :=
  if url.cannot_be_a_base then .error () else .ok ⟨mutate url add_trailing_slash⟩

/-- `impl FromStr for BaseUrl`. -/
def BaseUrl.from_str (input : String) : Except BaseUrlParseError BaseUrl :=
  match parseUrl input with
  | .error e => .error (.UrlParseError e)
  | .ok u =>
    match BaseUrl.tryFrom u with
    | .error _ => .error .IsNotBaseUrl
    | .ok b => .ok b

/-- `PathSegmentsMut::pop_if_empty`: drop a trailing empty segment, except
when it is the only thing after the path's first `/`. -/
def popIfEmpty (segs : List Chars) : List Chars :=
  if segs.length ≥ 2 ∧ segs.getLast? = some [] then segs.dropLast else segs

/-- One push of `PathSegmentsMut::extend`: the segment is percent-encoded
with (SPECIAL_)PATH_SEGMENT and appended, with a separator added only when
the current path is longer than a single `/`. -/
def pushSegment (sp : Bool) (segs : List Chars) (s : Chars) : List Chars :=
  if segs = [] ∨ segs = [[]] then
    [encodeWith (if sp then specialPathSegmentSet else pathSegmentSet) s]
  else segs ++ [encodeWith (if sp then specialPathSegmentSet else pathSegmentSet) s]

/-- `PathSegmentsMut::extend`: push each segment, skipping "." and "..". -/
def extendSegments (sp : Bool) (segs : List Chars) (xs : List Chars) : List Chars :=
  xs.foldl (fun acc s => if s = ['.'] ∨ s = ['.', '.'] then acc else pushSegment sp acc s) segs

/-- Rust's `str::strip_prefix('/').unwrap_or(path)`: drop one leading `/`. -/
def stripOneLeadingSlash (l : Chars) : Chars :=
  match l with
  | '/' :: rest => rest
  | _ => l

/-- The segment list produced by one `append_path` call on a hierarchical
URL: `pop_if_empty`, then strip one leading `/` from the argument, split it
on `/` and `extend`. -/
def appendSegs (sp : Bool) (segs : List Chars) (p : String) : List Chars :=
  extendSegments sp (popIfEmpty segs) (splitOnChar '/' (stripOneLeadingSlash p.data))

/-- `BaseUrl::append_path` from `src/base_url.rs`: fail when the URL cannot
be a base; otherwise `pop_if_empty`, strip one leading `/` from the
argument, split it on `/` and extend the path segments. -/
def BaseUrl.append_path (b : BaseUrl) (p : String) : Except Unit BaseUrl :=
  match b.url.path with
  | .nonBase _ => .error ()
  | .segments segs =>
    .ok ⟨{ b.url with
           path := .segments (appendSegs (isSpecialScheme b.url.scheme) segs p) }⟩

instance {ε α : Type} [DecidableEq ε] [DecidableEq α] : DecidableEq (Except ε α) := fun a b =>
  match a, b with
  | .error e, .error e' =>
    if h : e = e' then .isTrue (by rw [h]) else .isFalse (by simp [h])
  | .error _, .ok _ => .isFalse (by simp)
  | .ok _, .error _ => .isFalse (by simp)
  | .ok x, .ok x' =>
    if h : x = x' then .isTrue (by rw [h]) else .isFalse (by simp [h])

/-- `BaseUrl`'s `Display`/`as_str` form (forwards to the wrapped URL). -/
def BaseUrl.serialize (b : BaseUrl) : String := b.url.serialize

/-- The serde deserialization error cases of `deserialize_url_with_trailing_slash`. -/
inductive DeError
  | urlError (e : ParseError)
  | cannotBeABase
deriving DecidableEq

/-- `deserialize_url_with_trailing_slash` from `src/base_url.rs`:
deserialize a `Url` (i.e. parse the string), reject URLs that cannot be a
base with a custom error, and normalize with `add_trailing_slash`. -/
def deserialize_url_with_trailing_slash (input : String) : Except DeError Url :=
  match parseUrl input with
  | .error e => .error (.urlError e)
  | .ok url =>
    if url.cannot_be_a_base then .error .cannotBeABase
    else .ok (mutate url add_trailing_slash)

/-- Serde deserialization of a `BaseUrl` (the `#[serde(transparent)]` wrapper
whose `url` field uses `deserialize_url_with_trailing_slash`). -/
def BaseUrl.deserialize (input : String) : Except DeError BaseUrl :=
  match deserialize_url_with_trailing_slash input with
  | .error e => .error e
  | .ok u => .ok ⟨u⟩

/-- The parse of `"http://example.com"` (and of `"http://example.com/"`). -/
def urlExampleCom : Url :=
  ⟨"http".data, [], none, some "example.com".data, none, .segments [[]], none, none⟩

/-- The parse of `"http://h/"`. -/
def urlHostH : Url :=
  ⟨"http".data, [], none, some ['h'], none, .segments [[]], none, none⟩

/-- Well-formedness of a hierarchical path's segments as the parser produces
them: percent-encoded against PATH, no separator, and for special schemes no
backslash. -/
def SegsWF (sp : Bool) (segs : List Chars) : Prop :=
  ∀ l ∈ segs, ∀ c ∈ l, pathSet c = false ∧ c ≠ '/' ∧ (sp = true → c ≠ '\\')

/-- Well-formedness of a parsed scheme. -/
def SchemeWF (sc : Chars) : Prop :=
  headIsAlpha sc = true ∧ sc.all isSchemeChar = true ∧ lowerChars sc = sc

/-- Well-formedness of a parsed host: either IPv6 bracket notation, or a
lower-cased colon-free name. -/
def HostWF (sp : Bool) (h : Chars) : Prop :=
  (∀ c ∈ h, c ≠ '/' ∧ c ≠ '?' ∧ c ≠ '#' ∧ c ≠ '@' ∧ (sp = true → c ≠ '\\')) ∧
  ((∃ inside, h = '[' :: inside ++ [']'] ∧ ∀ c ∈ inside, c ≠ ']') ∨
   ((∀ t, h ≠ '[' :: t) ∧ (∀ c ∈ h, c ≠ ':') ∧ lowerChars h = h))

/-- Well-formedness of parsed userinfo. -/
def UserinfoWF (user : Chars) (pass : Option Chars) : Prop :=
  (∀ c ∈ user, userinfoSet c = false) ∧
  (match pass with
   | some pw => ∀ c ∈ pw, userinfoSet c = false
   | none => True)

/-- Well-formedness of a parsed port. -/
def PortWF (sc : Chars) (po : Option Nat) : Prop :=
  match po with
  | some n => n ≤ 65535 ∧ defaultPort sc ≠ some n
  | none => True

/-- Well-formedness of an optional component against an encode set. -/
def OptWF (S : Char → Bool) (o : Option Chars) : Prop :=
  match o with
  | some l => ∀ c ∈ l, S c = false
  | none => True

/-- Well-formedness of a `Url` value: the shape of parser outputs.
`parseUrl` produces only such values, and re-parses the serialization of any
such value to the value itself. -/
def UrlWF (u : Url) : Prop :=
  SchemeWF u.scheme ∧
  OptWF (if isSpecialScheme u.scheme then specialQuerySet else querySet) u.query ∧
  OptWF fragmentSet u.fragment ∧
  match u.host with
  | some h =>
    HostWF (isSpecialScheme u.scheme) h ∧ UserinfoWF u.username u.password ∧
    PortWF u.scheme u.port ∧
    ∃ segs, u.path = UrlPath.segments segs ∧ SegsWF (isSpecialScheme u.scheme) segs ∧
      (isSpecialScheme u.scheme = true → segs ≠ [] ∧ (u.scheme = "file".data ∨ h ≠ []))
  | none =>
    u.username = [] ∧ u.password = none ∧ u.port = none ∧
    isSpecialScheme u.scheme = false ∧
    match u.path with
    | .segments segs => SegsWF false segs ∧ segs ≠ [] ∧
        (segs = [[]] ∨ ∃ x xs, segs = x :: xs ∧ x ≠ [])
    | .nonBase p => (∀ c ∈ p, c0ControlSet c = false ∧ c ≠ '?' ∧ c ≠ '#') ∧
        ∀ t, p ≠ '/' :: t

/-! ### Character-level facts -/

theorem char_toNat_lt (c : Char) : c.toNat < 1114112 := by
  rcases c.valid with h | ⟨_, h2⟩
  · exact Nat.lt_trans h (by norm_num)
  · exact h2

theorem toNat_ofNat_valid {n : Nat} (h : n < 55296) : (Char.ofNat n).toNat = n := by
  unfold Char.ofNat
  rw [dif_pos (Or.inl h)]
  simp [Char.ofNatAux, Char.toNat, UInt32.ofNat', UInt32.toNat]

theorem toNat_toLowerChar (c : Char) :
    (toLowerChar c).toNat = if 65 ≤ c.toNat ∧ c.toNat ≤ 90 then c.toNat + 32 else c.toNat := by
  unfold toLowerChar
  split
  · exact toNat_ofNat_valid (by omega)
  · rfl

theorem toLowerChar_eq_self {c : Char} (h : ¬(65 ≤ c.toNat ∧ c.toNat ≤ 90)) :
    toLowerChar c = c := by
  unfold toLowerChar
  rw [if_neg h]

theorem toLowerChar_idem (c : Char) : toLowerChar (toLowerChar c) = toLowerChar c := by
  have h := toNat_toLowerChar c
  apply toLowerChar_eq_self
  intro hc
  split at h <;> omega

theorem lowerChars_idem (l : Chars) : lowerChars (lowerChars l) = lowerChars l := by
  unfold lowerChars
  rw [List.map_map]
  exact List.map_congr_left fun c _ => toLowerChar_idem c

theorem toLowerChar_low {c : Char} (h : (toLowerChar c).toNat < 97) : toLowerChar c = c := by
  have h2 := toNat_toLowerChar c
  by_cases hc : 65 ≤ c.toNat ∧ c.toNat ≤ 90
  · rw [if_pos hc] at h2; omega
  · unfold toLowerChar; rw [if_neg hc]

theorem utf8Bytes_lt {n : Nat} (hn : n < 1114112) : ∀ b ∈ utf8Bytes n, b < 256 := by
  intro b hb
  unfold utf8Bytes at hb
  split_ifs at hb with h1 h2 h3
  · simp only [List.mem_singleton] at hb
    omega
  · simp only [List.mem_cons, List.mem_singleton, List.not_mem_nil, or_false] at hb
    rcases hb with rfl | rfl <;> omega
  · simp only [List.mem_cons, List.mem_singleton, List.not_mem_nil, or_false] at hb
    rcases hb with rfl | rfl | rfl <;> omega
  · simp only [List.mem_cons, List.mem_singleton, List.not_mem_nil, or_false] at hb
    rcases hb with rfl | rfl | rfl | rfl <;> omega

/-- The facts about hexadecimal digit characters all lemmas below need. -/
theorem hexDigitChar_facts : ∀ n, n < 16 →
    (hexDigitChar n ≠ '%' ∧ hexDigitChar n ≠ '/' ∧ hexDigitChar n ≠ ':' ∧
     hexDigitChar n ≠ '@' ∧ hexDigitChar n ≠ '\\' ∧ hexDigitChar n ≠ '#' ∧
     hexDigitChar n ≠ '?' ∧ hexDigitChar n ≠ ']' ∧
     pathSet (hexDigitChar n) = false ∧ querySet (hexDigitChar n) = false ∧
     specialQuerySet (hexDigitChar n) = false ∧ fragmentSet (hexDigitChar n) = false ∧
     c0ControlSet (hexDigitChar n) = false ∧ userinfoSet (hexDigitChar n) = false) := by
  decide

/-! ### Percent-encoding lemmas -/

theorem encodeWith_nil (S : Char → Bool) : encodeWith S [] = [] := rfl

theorem encodeWith_cons (S : Char → Bool) (c : Char) (cs : Chars) :
    encodeWith S (c :: cs) = encodeChar S c ++ encodeWith S cs := by
  simp [encodeWith]

theorem encodeWith_append (S : Char → Bool) (a b : Chars) :
    encodeWith S (a ++ b) = encodeWith S a ++ encodeWith S b := by
  simp [encodeWith]

theorem encodeChar_of_not_inSet {S : Char → Bool} {c : Char} (h : S c = false) :
    encodeChar S c = [c] := by
  simp [encodeChar, h]

theorem encodeWith_id {S : Char → Bool} {l : Chars} (h : ∀ c ∈ l, S c = false) :
    encodeWith S l = l := by
  induction l with
  | nil => rfl
  | cons c cs ih =>
    rw [encodeWith_cons, encodeChar_of_not_inSet (h c (by simp)),
      ih (fun d hd => h d (by simp [hd]))]
    rfl

theorem mem_encodeWith {S : Char → Bool} {l : Chars} {c : Char} (h : c ∈ encodeWith S l) :
    (c ∈ l ∧ S c = false) ∨ c = '%' ∨ ∃ n, n < 16 ∧ c = hexDigitChar n := by
  unfold encodeWith at h
  rw [List.mem_flatten] at h
  obtain ⟨piece, hp, hc⟩ := h
  rw [List.mem_map] at hp
  obtain ⟨x, hx, rfl⟩ := hp
  unfold encodeChar at hc
  split at hc
  · rw [List.mem_flatten] at hc
    obtain ⟨pb, hpb, hcpb⟩ := hc
    rw [List.mem_map] at hpb
    obtain ⟨b, hb, rfl⟩ := hpb
    have hblt : b < 256 := utf8Bytes_lt (char_toNat_lt x) b hb
    simp only [percentEncodeByte, List.mem_cons, List.mem_singleton, List.not_mem_nil,
      or_false] at hcpb
    rcases hcpb with rfl | rfl | rfl
    · exact Or.inr (Or.inl rfl)
    · exact Or.inr (Or.inr ⟨b / 16, by omega, rfl⟩)
    · exact Or.inr (Or.inr ⟨b % 16, by omega, rfl⟩)
  · next hS =>
    simp only [List.mem_singleton] at hc
    subst hc
    exact Or.inl ⟨hx, by simpa using hS⟩

theorem encodeChar_ne_nil (S : Char → Bool) (c : Char) : encodeChar S c ≠ [] := by
  unfold encodeChar
  split
  · unfold utf8Bytes
    split_ifs <;> simp [percentEncodeByte]
  · simp

theorem encodeWith_ne_nil {S : Char → Bool} {l : Chars} (h : l ≠ []) :
    encodeWith S l ≠ [] := by
  match l with
  | c :: cs =>
    rw [encodeWith_cons]
    intro habs
    exact encodeChar_ne_nil S c (List.append_eq_nil.mp habs).1

theorem encodeWith_cons_of_safe {S : Char → Bool} {c : Char} (cs : Chars) (h : S c = false) :
    encodeWith S (c :: cs) = c :: encodeWith S cs := by
  rw [encodeWith_cons, encodeChar_of_not_inSet h]
  rfl

theorem encodeWith_cons_of_inSet {S : Char → Bool} {c : Char} (cs : Chars) (h : S c = true) :
    ∃ t, encodeWith S (c :: cs) = '%' :: t := by
  rw [encodeWith_cons]
  unfold encodeChar
  rw [if_pos h]
  unfold utf8Bytes
  split_ifs <;> simp [percentEncodeByte]

/-! ### Splitter lemmas -/

theorem splitAtFirst_of_not_mem {sep : Char} {l : Chars} (h : ∀ c ∈ l, c ≠ sep) :
    splitAtFirst sep l = (l, none) := by
  induction l with
  | nil => rfl
  | cons c cs ih =>
    unfold splitAtFirst
    rw [if_neg (h c (by simp)), ih (fun d hd => h d (by simp [hd]))]

theorem splitAtFirst_append {sep : Char} {a : Chars} (r : Chars) (h : ∀ c ∈ a, c ≠ sep) :
    splitAtFirst sep (a ++ sep :: r) = (a, some r) := by
  induction a with
  | nil => simp [splitAtFirst]
  | cons c cs ih =>
    rw [List.cons_append]
    unfold splitAtFirst
    rw [if_neg (h c (by simp)), ih (fun d hd => h d (by simp [hd]))]

theorem splitAtFirst_eq_some {sep : Char} {l a r : Chars}
    (h : splitAtFirst sep l = (a, some r)) : l = a ++ sep :: r ∧ ∀ c ∈ a, c ≠ sep := by
  induction l generalizing a with
  | nil => simp [splitAtFirst] at h
  | cons c cs ih =>
    unfold splitAtFirst at h
    rcases hsp : splitAtFirst sep cs with ⟨a1, o⟩
    rw [hsp] at h
    split at h
    · next hc =>
      subst hc
      simp only [Prod.mk.injEq] at h
      obtain ⟨ha, hr⟩ := h
      subst ha
      obtain rfl : cs = r := Option.some.inj hr
      simp
    · next hc =>
      simp only [Prod.mk.injEq] at h
      obtain ⟨ha, hr⟩ := h
      subst ha
      obtain ⟨h1, h2⟩ := ih (a := a1) (by rw [hsp, hr])
      refine ⟨by simp [h1], ?_⟩
      intro d hd
      rcases List.mem_cons.mp hd with rfl | hd'
      · exact hc
      · exact h2 d hd'

theorem splitAtFirst_eq_none {sep : Char} {l a : Chars}
    (h : splitAtFirst sep l = (a, none)) : l = a ∧ ∀ c ∈ a, c ≠ sep := by
  induction l generalizing a with
  | nil =>
    simp only [splitAtFirst, Prod.mk.injEq] at h
    obtain ⟨ha, -⟩ := h
    subst ha
    simp
  | cons c cs ih =>
    unfold splitAtFirst at h
    rcases hsp : splitAtFirst sep cs with ⟨a1, o⟩
    rw [hsp] at h
    split at h
    · simp at h
    · next hc =>
      simp only [Prod.mk.injEq] at h
      obtain ⟨ha, hr⟩ := h
      subst ha
      obtain ⟨h1, h2⟩ := ih (a := a1) (by rw [hsp, hr])
      refine ⟨by simp [h1], ?_⟩
      intro d hd
      rcases List.mem_cons.mp hd with rfl | hd'
      · exact hc
      · exact h2 d hd'

theorem splitAtLast_of_not_mem {sep : Char} {l : Chars} (h : ∀ c ∈ l, c ≠ sep) :
    splitAtLast sep l = none := by
  induction l with
  | nil => rfl
  | cons c cs ih =>
    unfold splitAtLast
    rw [ih (fun d hd => h d (by simp [hd]))]
    simp [h c (by simp)]

theorem splitAtLast_append {sep : Char} (a : Chars) {b : Chars} (h : ∀ c ∈ b, c ≠ sep) :
    splitAtLast sep (a ++ sep :: b) = some (a, b) := by
  induction a with
  | nil =>
    simp only [List.nil_append]
    unfold splitAtLast
    rw [splitAtLast_of_not_mem h]
    simp
  | cons c cs ih =>
    rw [List.cons_append]
    unfold splitAtLast
    rw [ih]

theorem splitAtLast_eq_none {sep : Char} {l : Chars}
    (h : splitAtLast sep l = none) : ∀ c ∈ l, c ≠ sep := by
  induction l with
  | nil => simp
  | cons c cs ih =>
    unfold splitAtLast at h
    split at h
    · simp at h
    · next heq =>
      split at h
      · simp at h
      · next hc =>
        intro d hd
        rcases List.mem_cons.mp hd with rfl | hd'
        · exact hc
        · exact ih heq d hd'

theorem splitAtLast_eq_some {sep : Char} {l a b : Chars}
    (h : splitAtLast sep l = some (a, b)) : l = a ++ sep :: b ∧ ∀ c ∈ b, c ≠ sep := by
  induction l generalizing a with
  | nil => simp [splitAtLast] at h
  | cons c cs ih =>
    unfold splitAtLast at h
    split at h
    · next a' b' heq =>
      simp only [Option.some.injEq, Prod.mk.injEq] at h
      obtain ⟨ha, hb⟩ := h
      subst ha
      obtain ⟨h1, h2⟩ := ih (a := a') (by rw [heq, hb])
      exact ⟨by simp [h1], h2⟩
    · next heq =>
      split at h
      · next hc =>
        subst hc
        simp only [Option.some.injEq, Prod.mk.injEq] at h
        obtain ⟨ha, hb⟩ := h
        subst hb
        subst ha
        exact ⟨rfl, splitAtLast_eq_none heq⟩
      · simp at h

theorem splitOnChar_ne_nil (sep : Char) (l : Chars) : splitOnChar sep l ≠ [] := by
  induction l with
  | nil => simp [splitOnChar]
  | cons c cs ih =>
    unfold splitOnChar
    split
    · simp
    · split
      · simp
      · simp

theorem splitOnChar_cons_sep (sep : Char) (cs : Chars) :
    splitOnChar sep (sep :: cs) = [] :: splitOnChar sep cs := by
  conv_lhs => unfold splitOnChar
  rw [if_pos rfl]

theorem splitOnChar_cons_of_ne {sep c : Char} {cs x : Chars} {rest : List Chars}
    (hc : c ≠ sep) (hsp : splitOnChar sep cs = x :: rest) :
    splitOnChar sep (c :: cs) = (c :: x) :: rest := by
  unfold splitOnChar
  rw [if_neg hc, hsp]

theorem splitOnChar_of_not_mem {sep : Char} {l : Chars} (h : ∀ c ∈ l, c ≠ sep) :
    splitOnChar sep l = [l] := by
  induction l with
  | nil => rfl
  | cons c cs ih =>
    exact splitOnChar_cons_of_ne (h c (by simp)) (ih (fun d hd => h d (by simp [hd])))

theorem splitOnChar_append {sep : Char} {a : Chars} (r : Chars) (h : ∀ c ∈ a, c ≠ sep) :
    splitOnChar sep (a ++ sep :: r) = a :: splitOnChar sep r := by
  induction a with
  | nil =>
    rw [List.nil_append]
    exact splitOnChar_cons_sep sep r
  | cons c cs ih =>
    rw [List.cons_append]
    exact splitOnChar_cons_of_ne (h c (by simp)) (ih (fun d hd => h d (by simp [hd])))

theorem mem_splitOnChar {sep : Char} {l x : Chars} (hx : x ∈ splitOnChar sep l) :
    ∀ c ∈ x, c ≠ sep ∧ c ∈ l := by
  induction l generalizing x with
  | nil =>
    simp only [splitOnChar, List.mem_singleton] at hx
    subst hx
    simp
  | cons c cs ih =>
    unfold splitOnChar at hx
    split at hx
    · next hc =>
      subst hc
      rcases List.mem_cons.mp hx with rfl | hx'
      · simp
      · intro d hd
        obtain ⟨h1, h2⟩ := ih hx' d hd
        exact ⟨h1, by simp [h2]⟩
    · next hc =>
      rcases hsp : splitOnChar sep cs with _ | ⟨a, rest⟩
      · exact absurd hsp (splitOnChar_ne_nil sep cs)
      · rw [hsp] at hx
        rcases List.mem_cons.mp hx with rfl | hx'
        · intro d hd
          rcases List.mem_cons.mp hd with rfl | hd'
          · exact ⟨hc, by simp⟩
          · obtain ⟨h1, h2⟩ := ih (by rw [hsp]; simp) d hd'
            exact ⟨h1, by simp [h2]⟩
        · intro d hd
          obtain ⟨h1, h2⟩ := ih (by rw [hsp]; simp [hx']) d hd
          exact ⟨h1, by simp [h2]⟩

/-! ### Path-segment mutation lemmas -/

theorem popIfEmpty_concat_ne {l : List Chars} {x : Chars} (hx : x ≠ []) :
    popIfEmpty (l ++ [x]) = l ++ [x] := by
  unfold popIfEmpty
  rw [if_neg]
  rintro ⟨-, h2⟩
  rw [List.getLast?_concat] at h2
  exact hx (Option.some.inj h2)

theorem popIfEmpty_concat_nil {l : List Chars} (h : l ≠ []) :
    popIfEmpty (l ++ [[]]) = l := by
  unfold popIfEmpty
  rw [if_pos ⟨by
    have := List.length_pos.mpr h
    simp only [List.length_append, List.length_singleton]
    omega, List.getLast?_concat _⟩]
  exact List.dropLast_concat ..

theorem popIfEmpty_singleton (x : Chars) : popIfEmpty [x] = [x] := by
  unfold popIfEmpty
  rw [if_neg]
  rintro ⟨h1, -⟩
  simp at h1

theorem popIfEmpty_ne_nil {segs : List Chars} (h : segs ≠ []) : popIfEmpty segs ≠ [] := by
  unfold popIfEmpty
  split
  · next hcond =>
    have h1 := hcond.1
    intro habs
    have := congrArg List.length habs
    rw [List.length_dropLast] at this
    simp at this
    omega
  · exact h

theorem extendSegments_append (sp : Bool) (segs : List Chars) (xs ys : List Chars) :
    extendSegments sp segs (xs ++ ys) = extendSegments sp (extendSegments sp segs xs) ys :=
  List.foldl_append ..

theorem extendSegments_singleton (sp : Bool) (segs : List Chars) (s : Chars) :
    extendSegments sp segs [s] =
      if s = ['.'] ∨ s = ['.', '.'] then segs else pushSegment sp segs s := rfl

theorem stripOneLeadingSlash_cons_of_ne {c : Char} (rest : Chars) (h : c ≠ '/') :
    stripOneLeadingSlash (c :: rest) = c :: rest := by
  unfold stripOneLeadingSlash
  split
  · next heq =>
    exact absurd (List.cons.inj heq).1 h
  · rfl

theorem stripOneLeadingSlash_of_not_mem {l : Chars} (h : ∀ c ∈ l, c ≠ '/') :
    stripOneLeadingSlash l = l := by
  match l with
  | [] => rfl
  | c :: rest => exact stripOneLeadingSlash_cons_of_ne rest (h c (by simp))

/-- Appending one non-`"."`/`".."` segment and then another list of segments
is the same as appending them in one `extend` call: the `pop_if_empty` of the
second call undoes exactly the effect a first empty segment had. -/
theorem extend_pop_extend {sp : Bool} {t : List Chars} (s1 s2 : Chars)
    (ht : t ≠ []) (hdot : s1 ≠ ['.'] ∧ s1 ≠ ['.', '.']) :
    extendSegments sp (popIfEmpty (extendSegments sp t [s1])) [s2] =
      extendSegments sp t (if s1 = [] then [s2] else [s1, s2]) := by
  by_cases hnil : s1 = []
  · subst hnil
    rw [if_pos rfl]
    have h1 : extendSegments sp t [([] : Chars)] = pushSegment sp t [] := by
      rw [extendSegments_singleton sp t [], if_neg (by simp)]
    rw [h1]
    by_cases ht1 : t = [[]]
    · subst ht1
      have h2 : pushSegment sp [[]] [] = [[]] := by
        unfold pushSegment
        rw [if_pos (Or.inr rfl), encodeWith_nil]
      rw [h2, popIfEmpty_singleton]
    · have h2 : pushSegment sp t [] = t ++ [[]] := by
        unfold pushSegment
        rw [if_neg (by simp [ht, ht1]), encodeWith_nil]
      rw [h2, popIfEmpty_concat_nil ht]
  · rw [if_neg hnil]
    have h1 : extendSegments sp t [s1] = pushSegment sp t s1 := by
      rw [extendSegments_singleton sp t s1, if_neg (by simp [hdot.1, hdot.2])]
    have hlist : ([s1, s2] : List Chars) = [s1] ++ [s2] := rfl
    rw [hlist, extendSegments_append, h1]
    congr 1
    have henc : encodeWith (if sp then specialPathSegmentSet else pathSegmentSet) s1 ≠ [] :=
      encodeWith_ne_nil hnil
    unfold pushSegment
    split
    · exact popIfEmpty_singleton _
    · exact popIfEmpty_concat_ne henc

/-! ### Behavior of the `BaseUrl` operations -/

theorem cannot_be_a_base_setPathChars (u : Url) (p : Chars) :
    (u.setPathChars p).cannot_be_a_base = u.cannot_be_a_base := by
  unfold Url.setPathChars Url.cannot_be_a_base
  rcases u with ⟨sc, us, pw, ho, po, path, q, f⟩
  cases path <;> rfl

theorem cannot_be_a_base_add_trailing_slash (u : Url) :
    (add_trailing_slash u).cannot_be_a_base = u.cannot_be_a_base := by
  unfold add_trailing_slash Url.set_path
  split
  · exact cannot_be_a_base_setPathChars ..
  · rfl

theorem setPathChars_fields (u : Url) (p : Chars) :
    (u.setPathChars p).scheme = u.scheme ∧ (u.setPathChars p).username = u.username ∧
    (u.setPathChars p).password = u.password ∧ (u.setPathChars p).host = u.host ∧
    (u.setPathChars p).port = u.port ∧ (u.setPathChars p).query = u.query ∧
    (u.setPathChars p).fragment = u.fragment := by
  unfold Url.setPathChars
  rcases u with ⟨sc, us, pw, ho, po, path, q, f⟩
  cases path <;> exact ⟨rfl, rfl, rfl, rfl, rfl, rfl, rfl⟩

theorem add_trailing_slash_fields (u : Url) :
    (add_trailing_slash u).scheme = u.scheme ∧ (add_trailing_slash u).username = u.username ∧
    (add_trailing_slash u).password = u.password ∧ (add_trailing_slash u).host = u.host ∧
    (add_trailing_slash u).port = u.port ∧ (add_trailing_slash u).query = u.query ∧
    (add_trailing_slash u).fragment = u.fragment := by
  unfold add_trailing_slash Url.set_path
  split
  · exact setPathChars_fields ..
  · exact ⟨rfl, rfl, rfl, rfl, rfl, rfl, rfl⟩

theorem from_str_ok (s : String) (b : BaseUrl) (h : BaseUrl.from_str s = .ok b) :
    ∃ u, parseUrl s = .ok u ∧ u.cannot_be_a_base = false ∧ b = ⟨add_trailing_slash u⟩ := by
  unfold BaseUrl.from_str at h
  split at h
  · simp at h
  · next u hu =>
    split at h
    · simp at h
    · next b0 heq =>
      obtain rfl : b0 = b := Except.ok.inj h
      unfold BaseUrl.tryFrom at heq
      split at heq
      · simp at heq
      · next hcb =>
        refine ⟨u, hu, by simpa using hcb, ?_⟩
        exact (Except.ok.inj heq).symm

theorem from_str_ok_not_cbab {s : String} {b : BaseUrl} (h : BaseUrl.from_str s = .ok b) :
    b.url.cannot_be_a_base = false := by
  obtain ⟨u, -, hcb, rfl⟩ := from_str_ok s b h
  rw [cannot_be_a_base_add_trailing_slash]
  exact hcb

theorem not_cbab_segments {u : Url} (h : u.cannot_be_a_base = false) :
    ∃ segs, u.path = UrlPath.segments segs := by
  unfold Url.cannot_be_a_base at h
  rcases hp : u.path with segs | p
  · exact ⟨segs, rfl⟩
  · rw [hp] at h
    simp at h

theorem except_bind_ok {ε α β : Type} (x : α) (f : α → Except ε β) :
    Except.bind (Except.ok x) f = f x := rfl

/-- What `append_path` does on a hierarchical URL, as one equation. -/
theorem append_path_segments {b : BaseUrl} {segs : List Chars}
    (hpath : b.url.path = UrlPath.segments segs) (p : String) :
    b.append_path p =
      .ok ⟨{ b.url with
             path := UrlPath.segments (appendSegs (isSpecialScheme b.url.scheme) segs p) }⟩ := by
  unfold BaseUrl.append_path
  rw [hpath]

theorem append_path_nonBase {b : BaseUrl} {p0 : Chars}
    (hpath : b.url.path = UrlPath.nonBase p0) (p : String) :
    b.append_path p = .error () := by
  unfold BaseUrl.append_path
  rw [hpath]

/-- Claim C5: `append_path` only ever changes the path: every other component
of the URL is identical before and after a successful call. -/
theorem c5_append_path_frame (b b' : BaseUrl) (p : String)
    (h : b.append_path p = .ok b') :
    b'.url.scheme = b.url.scheme ∧ b'.url.host = b.url.host ∧
    b'.url.port = b.url.port ∧ b'.url.query = b.url.query ∧
    b'.url.fragment = b.url.fragment ∧ b'.url.username = b.url.username ∧
    b'.url.password = b.url.password := by
  rcases hp : b.url.path with segs | p0
  · rw [append_path_segments hp p] at h
    obtain rfl : _ = b' := Except.ok.inj h
    exact ⟨rfl, rfl, rfl, rfl, rfl, rfl, rfl⟩
  · rw [append_path_nonBase hp p] at h
    simp at h

/-- Witness for C5 at a concrete input. -/
theorem c5_append_path_frame_witness :
    (⟨urlHostH⟩ : BaseUrl).append_path "x" =
        .ok ⟨{ urlHostH with path := UrlPath.segments [['x']] }⟩ ∧
      (⟨{ urlHostH with path := UrlPath.segments [['x']] }⟩ : BaseUrl).url.host =
        (⟨urlHostH⟩ : BaseUrl).url.host := by
  constructor
  · decide
  · exact (c5_append_path_frame ⟨urlHostH⟩ ⟨{ urlHostH with path := UrlPath.segments [['x']] }⟩
      "x" (by decide)).2.1

/-- Claim C6: `append_path` fails (with the unit error) exactly on URLs that
cannot be a base, and on every `BaseUrl` built by a validated entry point it
always succeeds. -/
theorem c6_append_path_total :
    (∀ (b : BaseUrl) (p : String),
      b.append_path p = .error () ↔ b.url.cannot_be_a_base = true) ∧
    (∀ (s : String) (b : BaseUrl), BaseUrl.from_str s = .ok b →
      ∀ p : String, ∃ b', b.append_path p = .ok b') := by
  constructor
  · intro b p
    rcases hp : b.url.path with segs | p0
    · rw [append_path_segments hp p]
      unfold Url.cannot_be_a_base
      rw [hp]
      simp
    · rw [append_path_nonBase hp p]
      unfold Url.cannot_be_a_base
      rw [hp]
      simp
  · intro s b h p
    obtain ⟨segs, hsegs⟩ := not_cbab_segments (from_str_ok_not_cbab h)
    exact ⟨_, append_path_segments hsegs p⟩

/-- Witness for C6 at a concrete input. -/
theorem c6_append_path_total_witness :
    (⟨urlExampleCom⟩ : BaseUrl).url.cannot_be_a_base = false ∧
      ∃ b', (⟨urlExampleCom⟩ : BaseUrl).append_path "x" = .ok b' := by
  refine ⟨by decide, c6_append_path_total.2 "http://example.com" ⟨urlExampleCom⟩ ?_ "x"⟩
  decide

/-- Claim C7: `append_path` strips at most one leading `/` from its argument
(so `"/seg"` behaves exactly like `"seg"` when `seg` does not itself start
with `/`), and an argument with an inner `/` like `"a/b"` appends the two
segments `a` and `b` in one call. -/
theorem c7_leading_slash (b : BaseUrl) (s : String)
    (h : s.data.head? ≠ some '/') :
    b.append_path ("/" ++ s) = b.append_path s ∧
      (⟨urlHostH⟩ : BaseUrl).append_path "a/b" =
        .ok ⟨{ urlHostH with path := UrlPath.segments [['a'], ['b']] }⟩ := by
  refine ⟨?_, by decide⟩
  have hdata : ("/" ++ s).data = '/' :: s.data := by
    rw [String.data_append]
    rfl
  have hstrip : stripOneLeadingSlash (("/" ++ s).data) = stripOneLeadingSlash s.data := by
    rw [hdata]
    match hd : s.data with
    | [] => rfl
    | c :: rest =>
      have hc : c ≠ '/' := fun habs => h (by rw [hd, habs]; rfl)
      rw [stripOneLeadingSlash_cons_of_ne rest hc]
      rfl
  rcases hp : b.url.path with segs | p0
  · rw [append_path_segments hp ("/" ++ s), append_path_segments hp s]
    have hseg : appendSegs (isSpecialScheme b.url.scheme) segs ("/" ++ s) =
        appendSegs (isSpecialScheme b.url.scheme) segs s := by
      unfold appendSegs
      rw [hstrip]
    exact congrArg (fun X => Except.ok (⟨{ b.url with path := UrlPath.segments X }⟩ : BaseUrl))
      hseg
  · rw [append_path_nonBase hp ("/" ++ s), append_path_nonBase hp s]

/-- Witness for C7 at a concrete input. -/
theorem c7_leading_slash_witness :
    (⟨urlHostH⟩ : BaseUrl).append_path ("/" ++ "system") =
      (⟨urlHostH⟩ : BaseUrl).append_path "system" :=
  (c7_leading_slash ⟨urlHostH⟩ "system" (by decide)).1

/-- Claim C2 fails as stated: `s1 = "."` contains no `/`, yet on the base URL
`http://h///` appending `"."` then `"x"` gives `http://h/x` while appending
`"./x"` once gives `http://h///x` (the url crate silently skips `"."`
segments, and the second call's `pop_if_empty` removes a further empty
segment). -/
theorem c2_counterexample :
    ((BaseUrl.from_str "http://h///").toOption.bind (fun b =>
      (b.append_path ".").toOption.bind (fun b1 => (b1.append_path "x").toOption))) ≠
    ((BaseUrl.from_str "http://h///").toOption.bind (fun b =>
      (b.append_path "./x").toOption)) := by
  decide

/-- Claim C2 (amended): for every `BaseUrl` wrapping a hierarchical URL with
a nonempty segment list (true of every validated `BaseUrl`), and all
slash-free segment strings `s1`, `s2` where `s1` is not `"."` or `".."`
(which `extend` silently skips), appending `s1` then `s2` equals appending
`s1 ++ "/" ++ s2` in one call. -/
theorem c2_append_equivalence (b : BaseUrl) (segs : List Chars) (s1 s2 : String)
    (hpath : b.url.path = UrlPath.segments segs) (hne : segs ≠ [])
    (h1 : ∀ c ∈ s1.data, c ≠ '/') (h2 : ∀ c ∈ s2.data, c ≠ '/')
    (hdot1 : s1.data ≠ ['.']) (hdot2 : s1.data ≠ ['.', '.']) :
    (b.append_path s1).bind (fun b1 => b1.append_path s2) =
      b.append_path (s1 ++ "/" ++ s2) := by
  have hparts1 : splitOnChar '/' (stripOneLeadingSlash s1.data) = [s1.data] := by
    rw [stripOneLeadingSlash_of_not_mem h1, splitOnChar_of_not_mem h1]
  have hparts2 : splitOnChar '/' (stripOneLeadingSlash s2.data) = [s2.data] := by
    rw [stripOneLeadingSlash_of_not_mem h2, splitOnChar_of_not_mem h2]
  have hdata : (s1 ++ "/" ++ s2).data = s1.data ++ '/' :: s2.data := by
    rw [String.data_append, String.data_append, List.append_assoc]
    rfl
  have hRparts : splitOnChar '/' (stripOneLeadingSlash ((s1 ++ "/" ++ s2).data)) =
      if s1.data = [] then [s2.data] else [s1.data, s2.data] := by
    rw [hdata]
    by_cases hnil : s1.data = []
    · rw [hnil, if_pos rfl, List.nil_append,
        show stripOneLeadingSlash ('/' :: s2.data) = s2.data from rfl,
        splitOnChar_of_not_mem h2]
    · rw [if_neg hnil]
      cases hds : s1.data with
      | nil => exact absurd hds hnil
      | cons c cs =>
        have hc : c ≠ '/' := h1 c (by rw [hds]; simp)
        rw [List.cons_append, stripOneLeadingSlash_cons_of_ne _ hc, ← List.cons_append,
          splitOnChar_append _ (fun x hx => h1 x (by rw [hds]; exact hx)),
          splitOnChar_of_not_mem h2]
  have hseg : appendSegs (isSpecialScheme b.url.scheme)
      (appendSegs (isSpecialScheme b.url.scheme) segs s1) s2 =
      appendSegs (isSpecialScheme b.url.scheme) segs (s1 ++ "/" ++ s2) := by
    unfold appendSegs
    rw [hparts1, hparts2, hRparts]
    exact extend_pop_extend s1.data s2.data (popIfEmpty_ne_nil hne) ⟨hdot1, hdot2⟩
  rw [append_path_segments hpath s1, except_bind_ok,
    append_path_segments (b := ⟨{ b.url with
      path := UrlPath.segments (appendSegs (isSpecialScheme b.url.scheme) segs s1) }⟩) rfl s2,
    append_path_segments hpath (s1 ++ "/" ++ s2)]
  exact congrArg (fun X => Except.ok (⟨{ b.url with path := UrlPath.segments X }⟩ : BaseUrl))
    hseg

/-- Witness for C2 (amended) at a concrete input. -/
theorem c2_append_equivalence_witness :
    ((⟨urlHostH⟩ : BaseUrl).append_path "a").bind (fun b1 => b1.append_path "b") =
      (⟨urlHostH⟩ : BaseUrl).append_path ("a" ++ "/" ++ "b") :=
  c2_append_equivalence ⟨urlHostH⟩ [[]] "a" "b" rfl (by decide) (by decide) (by decide)
    (by decide) (by decide)

/-! ### Trailing-slash normalization lemmas -/

theorem splitOnChar_concat_sep (sep : Char) (l : Chars) :
    splitOnChar sep (l ++ [sep]) = splitOnChar sep l ++ [[]] := by
  induction l with
  | nil =>
    rw [List.nil_append, splitOnChar_cons_sep]
    rfl
  | cons c cs ih =>
    by_cases hc : c = sep
    · subst hc
      rw [List.cons_append, splitOnChar_cons_sep, ih, splitOnChar_cons_sep]
      rfl
    · rcases hsp : splitOnChar sep cs with _ | ⟨x, rest⟩
      · exact absurd hsp (splitOnChar_ne_nil sep cs)
      · have ih' : splitOnChar sep (cs ++ [sep]) = x :: (rest ++ [[]]) := by
          rw [ih, hsp]
          rfl
        rw [List.cons_append, splitOnChar_cons_of_ne hc ih',
          splitOnChar_cons_of_ne hc hsp]
        rfl

theorem splitOnChar_getLast_sep {sep : Char} {l : Chars} (h : l.getLast? = some sep) :
    (splitOnChar sep l).getLast? = some [] ∧ (splitOnChar sep l).length ≥ 2 := by
  obtain ⟨ys, rfl⟩ := List.getLast?_eq_some_iff.mp h
  rw [splitOnChar_concat_sep]
  refine ⟨List.getLast?_concat _, ?_⟩
  have := List.length_pos.mpr (splitOnChar_ne_nil sep ys)
  simp only [List.length_append, List.length_singleton]
  omega

theorem endsWithSlash_of_getLast_nil {segs : List Chars} (h : segs.getLast? = some []) :
    endsWithSlash (UrlPath.segments segs).chars = true := by
  obtain ⟨ys, rfl⟩ := List.getLast?_eq_some_iff.mp h
  show endsWithSlash ((List.map (fun s => '/' :: s) (ys ++ [[]])).flatten) = true
  rw [List.map_append, List.flatten_append]
  show endsWithSlash ((List.map (fun s => '/' :: s) ys).flatten ++ ['/']) = true
  unfold endsWithSlash
  rw [List.getLast?_concat]
  simp

theorem replaceBackslashes_concat_slash (sp : Bool) (l : Chars) :
    replaceBackslashes sp (l ++ ['/']) = replaceBackslashes sp l ++ ['/'] := by
  unfold replaceBackslashes
  cases sp <;> simp

/-- Parsing a path whose text ends with `/` yields a segment list whose
serialization again ends with `/`. -/
theorem endsWithSlash_parsePathSegs {l : Chars} (h : l.getLast? = some '/') :
    endsWithSlash (UrlPath.segments (parsePathSegsChars l)).chars = true := by
  rcases l with _ | ⟨d, rest⟩
  · simp at h
  · apply endsWithSlash_of_getLast_nil
    show ((splitOnChar '/' rest).map (encodeWith pathSet)).getLast? = some []
    rw [List.getLast?_map]
    rcases hr : rest with _ | ⟨e, es⟩
    · rfl
    · rw [← hr]
      have hrest : rest.getLast? = some '/' := by
        rw [hr]
        rw [hr, List.getLast?_cons_cons] at h
        exact h
      rw [(splitOnChar_getLast_sep hrest).1]
      rfl

theorem ensureLeadingSlash_getLast {l : Chars} (h : l.getLast? = some '/') :
    (ensureLeadingSlash l).getLast? = some '/' := by
  unfold ensureLeadingSlash
  split
  · exact h
  · obtain ⟨ys, rfl⟩ := List.getLast?_eq_some_iff.mp h
    exact List.getLast?_concat ('/' :: ys)

theorem setPathChars_segments {u : Url} {segs0 : List Chars}
    (hsegs : u.path = UrlPath.segments segs0) (p0 : Chars) :
    u.setPathChars p0 = { u with path := UrlPath.segments (parsePathSegsChars
      (ensureLeadingSlash (replaceBackslashes (isSpecialScheme u.scheme) p0))) } := by
  unfold Url.setPathChars
  rw [hsegs]

/-- The path of `add_trailing_slash u` ends with a slash for every URL that
can be a base. -/
theorem endsWithSlash_add_trailing_slash {u : Url} (h : u.cannot_be_a_base = false) :
    endsWithSlash ((add_trailing_slash u).path.chars) = true := by
  obtain ⟨segs, hsegs⟩ := not_cbab_segments h
  unfold add_trailing_slash
  split
  · next hne =>
    unfold Url.set_path
    rw [setPathChars_segments hsegs]
    apply endsWithSlash_parsePathSegs
    apply ensureLeadingSlash_getLast
    have hmk : (⟨u.path.chars ++ ['/']⟩ : String).data = u.path.chars ++ ['/'] := rfl
    rw [hmk, replaceBackslashes_concat_slash]
    exact List.getLast?_concat _
  · next hne =>
    simpa using hne

/-! ### Constructor classification lemmas -/

theorem from_str_of_parse_error {s : String} {e : ParseError} (h : parseUrl s = .error e) :
    BaseUrl.from_str s = .error (.UrlParseError e) := by
  unfold BaseUrl.from_str
  rw [h]

theorem from_str_of_cbab {s : String} {u : Url} (h : parseUrl s = .ok u)
    (hc : u.cannot_be_a_base = true) : BaseUrl.from_str s = .error .IsNotBaseUrl := by
  have ht : BaseUrl.tryFrom u = .error () := by
    unfold BaseUrl.tryFrom
    rw [if_pos hc]
  unfold BaseUrl.from_str
  rw [h]
  dsimp only
  rw [ht]

theorem from_str_of_ok {s : String} {u : Url} (h : parseUrl s = .ok u)
    (hc : u.cannot_be_a_base = false) :
    BaseUrl.from_str s = .ok ⟨add_trailing_slash u⟩ := by
  have ht : BaseUrl.tryFrom u = .ok ⟨add_trailing_slash u⟩ := by
    unfold BaseUrl.tryFrom
    rw [if_neg (by simp [hc])]
    rfl
  unfold BaseUrl.from_str
  rw [h]
  dsimp only
  rw [ht]

theorem tryFrom_ok {u : Url} {b : BaseUrl} (h : BaseUrl.tryFrom u = .ok b) :
    u.cannot_be_a_base = false ∧ b = ⟨add_trailing_slash u⟩ := by
  unfold BaseUrl.tryFrom at h
  split at h
  · simp at h
  · next hc => exact ⟨by simpa using hc, (Except.ok.inj h).symm⟩

theorem deserialize_of_parse_error {s : String} {e : ParseError}
    (h : parseUrl s = .error e) : BaseUrl.deserialize s = .error (.urlError e) := by
  unfold BaseUrl.deserialize deserialize_url_with_trailing_slash
  rw [h]

theorem deserialize_of_cbab {s : String} {u : Url} (h : parseUrl s = .ok u)
    (hc : u.cannot_be_a_base = true) :
    BaseUrl.deserialize s = .error .cannotBeABase := by
  unfold BaseUrl.deserialize deserialize_url_with_trailing_slash
  rw [h]
  dsimp only
  rw [if_pos hc]

theorem deserialize_of_ok {s : String} {u : Url} (h : parseUrl s = .ok u)
    (hc : u.cannot_be_a_base = false) :
    BaseUrl.deserialize s = .ok ⟨add_trailing_slash u⟩ := by
  unfold BaseUrl.deserialize deserialize_url_with_trailing_slash
  rw [h]
  dsimp only
  rw [if_neg (by simp [hc])]
  rfl

theorem deserialize_ok_inv (s : String) (b : BaseUrl) (h : BaseUrl.deserialize s = .ok b) :
    ∃ u, parseUrl s = .ok u ∧ u.cannot_be_a_base = false ∧ b = ⟨add_trailing_slash u⟩ := by
  rcases hp : parseUrl s with e | u
  · rw [deserialize_of_parse_error hp] at h
    simp at h
  · rcases hc : u.cannot_be_a_base with _ | _
    · exact ⟨u, rfl, hc, Except.ok.inj (h.symm.trans (deserialize_of_ok hp hc))⟩
    · rw [deserialize_of_cbab hp hc] at h
      simp at h

/-! ### Claims C1, C3, C9, C10 -/

/-- Claim C1 fails as stated: the invariant does not survive `append_path`.
Starting from `parse("http://www.example.com/api/v1")` (path normalized to
`/api/v1/`), one `append_path("system")` call leaves path `/api/v1/system`,
which does not end with `/`. -/
theorem c1_counterexample :
    ((BaseUrl.from_str "http://www.example.com/api/v1").toOption.bind
      (fun b => (b.append_path "system").toOption)).map
        (fun b => endsWithSlash b.url.path.chars) = some false := by
  decide

/-- Claim C1 (amended): every validated entry point (`from_str`, `try_from`,
deserialization) establishes that the wrapped URL's path ends with `/`;
`append_path` does not in general preserve this. -/
theorem c1_construction_invariant :
    (∀ (s : String) (b : BaseUrl), BaseUrl.from_str s = .ok b →
      endsWithSlash b.url.path.chars = true) ∧
    (∀ (u : Url) (b : BaseUrl), BaseUrl.tryFrom u = .ok b →
      endsWithSlash b.url.path.chars = true) ∧
    (∀ (s : String) (b : BaseUrl), BaseUrl.deserialize s = .ok b →
      endsWithSlash b.url.path.chars = true) := by
  refine ⟨fun s b h => ?_, fun u b h => ?_, fun s b h => ?_⟩
  · obtain ⟨u, -, hc, rfl⟩ := from_str_ok s b h
    exact endsWithSlash_add_trailing_slash hc
  · obtain ⟨hc, rfl⟩ := tryFrom_ok h
    exact endsWithSlash_add_trailing_slash hc
  · obtain ⟨u, -, hc, rfl⟩ := deserialize_ok_inv s b h
    exact endsWithSlash_add_trailing_slash hc

/-- Witness for C1 (amended) at a concrete input. -/
theorem c1_construction_invariant_witness :
    endsWithSlash (⟨urlExampleCom⟩ : BaseUrl).url.path.chars = true :=
  c1_construction_invariant.1 "http://example.com" ⟨urlExampleCom⟩ (by decide)

/-- Claim C3: `from_str` fails with `UrlParseError e` exactly when URL
parsing fails with `e`, fails with `IsNotBaseUrl` exactly when the string
parses to a URL that cannot be a base (as `"mailto:foo@example.com"` does),
and succeeds otherwise. -/
theorem c3_parse_classification :
    (∀ (s : String) (e : ParseError),
        BaseUrl.from_str s = .error (.UrlParseError e) ↔ parseUrl s = .error e) ∧
    (∀ s : String, BaseUrl.from_str s = .error .IsNotBaseUrl ↔
        ∃ u, parseUrl s = .ok u ∧ u.cannot_be_a_base = true) ∧
    (∀ s : String, (∃ b, BaseUrl.from_str s = .ok b) ↔
        ∃ u, parseUrl s = .ok u ∧ u.cannot_be_a_base = false) ∧
    BaseUrl.from_str "mailto:foo@example.com" = .error .IsNotBaseUrl := by
  refine ⟨?_, ?_, ?_, by decide⟩
  · intro s e
    constructor
    · intro h
      rcases hp : parseUrl s with e' | u
      · rw [from_str_of_parse_error hp] at h
        simp only [Except.error.injEq, BaseUrlParseError.UrlParseError.injEq] at h
        rw [h]
      · rcases hc : u.cannot_be_a_base with _ | _
        · rw [from_str_of_ok hp hc] at h
          simp at h
        · rw [from_str_of_cbab hp hc] at h
          simp at h
    · exact from_str_of_parse_error
  · intro s
    constructor
    · intro h
      rcases hp : parseUrl s with e' | u
      · rw [from_str_of_parse_error hp] at h
        simp at h
      · rcases hc : u.cannot_be_a_base with _ | _
        · rw [from_str_of_ok hp hc] at h
          simp at h
        · exact ⟨u, rfl, hc⟩
    · rintro ⟨u, hp, hc⟩
      exact from_str_of_cbab hp hc
  · intro s
    constructor
    · rintro ⟨b, h⟩
      obtain ⟨u, hp, hc, -⟩ := from_str_ok s b h
      exact ⟨u, hp, hc⟩
    · rintro ⟨u, hp, hc⟩
      exact ⟨_, from_str_of_ok hp hc⟩

/-- Claim C9: deserializing a `BaseUrl` parses the string as a URL
(propagating the parse error), fails with the descriptive "cannot be a base"
error on opaque-path URLs like `"mailto:a@b.com"`, and otherwise applies the
same trailing-slash normalization as parsing, so `"http://example.com"`
deserializes to the string form `"http://example.com/"`. -/
theorem c9_deserialize_contract :
    (∀ (s : String) (e : ParseError),
        BaseUrl.deserialize s = .error (.urlError e) ↔ parseUrl s = .error e) ∧
    (∀ (s : String) (u : Url), parseUrl s = .ok u → u.cannot_be_a_base = true →
        BaseUrl.deserialize s = .error .cannotBeABase) ∧
    (∀ (s : String) (u : Url), parseUrl s = .ok u → u.cannot_be_a_base = false →
        BaseUrl.deserialize s = .ok ⟨add_trailing_slash u⟩) ∧
    (BaseUrl.deserialize "http://example.com" = .ok ⟨urlExampleCom⟩ ∧
      (⟨urlExampleCom⟩ : BaseUrl).serialize = "http://example.com/") ∧
    BaseUrl.deserialize "mailto:a@b.com" = .error .cannotBeABase := by
  refine ⟨?_, fun s u hp hc => deserialize_of_cbab hp hc,
    fun s u hp hc => deserialize_of_ok hp hc,
    ⟨by decide, by decide⟩, by decide⟩
  intro s e
  constructor
  · intro h
    rcases hp : parseUrl s with e' | u
    · rw [deserialize_of_parse_error hp] at h
      simp only [Except.error.injEq, DeError.urlError.injEq] at h
      rw [h]
    · rcases hc : u.cannot_be_a_base with _ | _
      · rw [deserialize_of_ok hp hc] at h
        simp at h
      · rw [deserialize_of_cbab hp hc] at h
        simp at h
  · exact deserialize_of_parse_error

/-- Witness for C9 at a concrete input. -/
theorem c9_deserialize_contract_witness :
    BaseUrl.deserialize "http://example.com" = .ok ⟨add_trailing_slash urlExampleCom⟩ :=
  c9_deserialize_contract.2.2.1 "http://example.com" urlExampleCom (by decide) (by decide)

/-- Claim C10: the string-parse and deserialization construction paths agree:
they succeed on exactly the same inputs, and produce the same wrapped URL. -/
theorem c10_construction_agreement (s : String) :
    ((∃ b, BaseUrl.from_str s = .ok b) ↔ ∃ b, BaseUrl.deserialize s = .ok b) ∧
    (∀ b b', BaseUrl.from_str s = .ok b → BaseUrl.deserialize s = .ok b' → b = b') := by
  constructor
  · constructor
    · rintro ⟨b, h⟩
      obtain ⟨u, hp, hc, rfl⟩ := from_str_ok s b h
      exact ⟨_, deserialize_of_ok hp hc⟩
    · rintro ⟨b, h⟩
      obtain ⟨u, hp, hc, rfl⟩ := deserialize_ok_inv s b h
      exact ⟨_, from_str_of_ok hp hc⟩
  · intro b b' h h'
    obtain ⟨u, hp, hc, rfl⟩ := from_str_ok s b h
    exact (Except.ok.inj (h'.symm.trans (deserialize_of_ok hp hc))).symm

/-- Witness for C10 at a concrete input. -/
theorem c10_construction_agreement_witness :
    (⟨urlExampleCom⟩ : BaseUrl) = ⟨urlExampleCom⟩ :=
  (c10_construction_agreement "http://example.com").2 ⟨urlExampleCom⟩ ⟨urlExampleCom⟩
    (by decide) (by decide)

/-! ### Parse-image helper lemmas -/

theorem percent_not_in_sets :
    pathSet '%' = false ∧ querySet '%' = false ∧ specialQuerySet '%' = false ∧
    fragmentSet '%' = false ∧ c0ControlSet '%' = false ∧ userinfoSet '%' = false := by
  decide

theorem encodeWith_closed {S : Char → Bool} (hpc : S '%' = false)
    (hhex : ∀ n, n < 16 → S (hexDigitChar n) = false) {l : Chars} :
    ∀ c ∈ encodeWith S l, S c = false := by
  intro c hc
  rcases mem_encodeWith hc with ⟨-, h⟩ | rfl | ⟨n, hn, rfl⟩
  · exact h
  · exact hpc
  · exact hhex n hn

theorem mem_encodeWith_low {S : Char → Bool} {l : Chars} {c : Char}
    (hc : c ∈ encodeWith S l) (hne1 : c ≠ '%')
    (hne2 : ∀ n, n < 16 → c ≠ hexDigitChar n) : c ∈ l := by
  rcases mem_encodeWith hc with ⟨h, -⟩ | rfl | ⟨n, hn, rfl⟩
  · exact h
  · exact absurd rfl hne1
  · exact absurd rfl (hne2 n hn)

/-- The segments produced by the path parser are PATH-encoded and
separator-free. -/
theorem parsePathSegsChars_ok (X : Chars) :
    ∀ l ∈ parsePathSegsChars X, ∀ c ∈ l, pathSet c = false ∧ c ≠ '/' := by
  intro l hl c hc
  rcases X with _ | ⟨d, rest⟩
  · simp [parsePathSegsChars] at hl
  · obtain ⟨piece, hpiece, rfl⟩ :=
      List.mem_map.mp (by simpa [parsePathSegsChars] using hl)
    constructor
    · exact encodeWith_closed percent_not_in_sets.1
        (fun n hn => (hexDigitChar_facts n hn).2.2.2.2.2.2.2.2.1) c hc
    · rcases mem_encodeWith hc with ⟨h, -⟩ | rfl | ⟨n, hn, rfl⟩
      · exact (mem_splitOnChar hpiece c h).1
      · decide
      · exact (hexDigitChar_facts n hn).2.1

/-- Every character of a parsed segment comes from the path text, is `%`, or
is a hex digit. -/
theorem parsePathSegsChars_sub (X : Chars) :
    ∀ l ∈ parsePathSegsChars X, ∀ c ∈ l,
      c ∈ X ∨ c = '%' ∨ ∃ n, n < 16 ∧ c = hexDigitChar n := by
  intro l hl c hc
  rcases X with _ | ⟨d, rest⟩
  · simp [parsePathSegsChars] at hl
  · obtain ⟨piece, hpiece, rfl⟩ :=
      List.mem_map.mp (by simpa [parsePathSegsChars] using hl)
    rcases mem_encodeWith hc with ⟨h, -⟩ | rfl | ⟨n, hn, rfl⟩
    · exact Or.inl (by simp [(mem_splitOnChar hpiece c h).2])
    · exact Or.inr (Or.inl rfl)
    · exact Or.inr (Or.inr ⟨n, hn, rfl⟩)

theorem segsWF_of_no_backslash {sp : Bool} {X : Chars} (hX : ∀ c ∈ X, c ≠ '\\') :
    SegsWF sp (parsePathSegsChars X) := by
  intro l hl c hc
  obtain ⟨h1, h2⟩ := parsePathSegsChars_ok X l hl c hc
  refine ⟨h1, h2, fun _ => ?_⟩
  rcases parsePathSegsChars_sub X l hl c hc with h | rfl | ⟨n, hn, rfl⟩
  · exact hX c h
  · decide
  · exact (hexDigitChar_facts n hn).2.2.2.2.1

theorem segsWF_normalize {sp : Bool} {segs : List Chars} (h : SegsWF sp segs) :
    SegsWF sp (if segs = [] then [[]] else segs) := by
  split
  · intro l hl c hc
    simp only [List.mem_singleton] at hl
    subst hl
    simp at hc
  · exact h

theorem replaceBackslashes_no_bs {l : Chars} :
    ∀ c ∈ replaceBackslashes true l, c ≠ '\\' := by
  intro c hc
  unfold replaceBackslashes at hc
  rw [if_pos rfl] at hc
  obtain ⟨d, -, rfl⟩ := List.mem_map.mp hc
  split
  · decide
  · assumption

theorem mem_replaceBackslashes {sp : Bool} {l : Chars} {c : Char}
    (hc : c ∈ replaceBackslashes sp l) : c = '/' ∨ c ∈ l := by
  unfold replaceBackslashes at hc
  split at hc
  · obtain ⟨d, hd, rfl⟩ := List.mem_map.mp hc
    split
    · exact Or.inl rfl
    · exact Or.inr hd
  · exact Or.inr hc

theorem replaceBackslashes_id {sp : Bool} {l : Chars} (h : ∀ c ∈ l, c ≠ '\\') :
    replaceBackslashes sp l = l := by
  unfold replaceBackslashes
  split
  · rw [List.map_congr_left fun c hc => if_neg (h c hc)]
    exact List.map_id' l
  · rfl

theorem splitAuthPath_eq {l a p : Chars} (h : splitAuthPath l = (a, p)) :
    l = a ++ p ∧ (∀ c ∈ a, c ≠ '/') ∧ (p = [] ∨ ∃ r, p = '/' :: r) := by
  unfold splitAuthPath at h
  rcases hsp : splitAtFirst '/' l with ⟨a', o⟩
  rw [hsp] at h
  rcases o with _ | r
  · simp only [Prod.mk.injEq] at h
    obtain ⟨rfl, rfl⟩ := h
    obtain ⟨rfl, hfree⟩ := splitAtFirst_eq_none hsp
    exact ⟨by simp, hfree, Or.inl rfl⟩
  · simp only [Prod.mk.injEq] at h
    obtain ⟨rfl, rfl⟩ := h
    obtain ⟨hl, hfree⟩ := splitAtFirst_eq_some hsp
    exact ⟨hl, hfree, Or.inr ⟨r, rfl⟩⟩

theorem mem_lowerChars_low {l : Chars} {d : Char} (hd : d ∈ lowerChars l)
    (hlow : d.toNat < 97) : d ∈ l := by
  obtain ⟨c, hc, rfl⟩ := List.mem_map.mp hd
  rw [toLowerChar_low hlow]
  exact hc

theorem parsePortChars_ok {l : Chars} {po : Option Nat}
    (h : parsePortChars l = .ok po) :
    match po with | some n => n ≤ 65535 | none => True := by
  unfold parsePortChars at h
  split at h
  · obtain rfl := Except.ok.inj h
    trivial
  · split at h
    · split at h
      · next hle =>
        obtain rfl := Except.ok.inj h
        exact hle
      · simp at h
    · simp at h

theorem elideDefault_some {sc : Chars} {p : Option Nat} {n : Nat}
    (h : elideDefault sc p = some n) : p = some n ∧ defaultPort sc ≠ some n := by
  unfold elideDefault at h
  split at h
  · simp at h
  · next hne =>
    exact ⟨h, fun habs => hne (h.trans habs.symm)⟩

theorem portWF_of_parse {sc : Chars} {l : Chars} {p0 po : Option Nat}
    (hp : parsePortChars l = .ok p0) (he : elideDefault sc p0 = po) :
    PortWF sc po := by
  rcases po with _ | n
  · trivial
  · obtain ⟨rfl, hd⟩ := elideDefault_some he
    have := parsePortChars_ok hp
    exact ⟨this, hd⟩

/-- A host that is not in bracket notation cannot start with `[` (the parse
branch choosing the plain-host path guarantees it, and lower-casing keeps
it). -/
theorem lowerChars_not_bracket {l : Chars} (h : ∀ t, l ≠ '[' :: t) :
    ∀ t, lowerChars l ≠ '[' :: t := by
  intro t habs
  rcases l with _ | ⟨c, cs⟩
  · simp [lowerChars] at habs
  · have hc : toLowerChar c = '[' := (List.cons.inj habs).1
    have : toLowerChar c = c := toLowerChar_low (by rw [hc]; decide)
    exact h cs (by rw [← this, hc])

theorem parsePortTail_ok {sc after : Chars} {po : Option Nat}
    (h : parsePortTail sc after = .ok po) : PortWF sc po := by
  unfold parsePortTail at h
  split at h
  · obtain rfl := Except.ok.inj h
    trivial
  · split at h
    · simp at h
    · next port hpp =>
      obtain rfl := Except.ok.inj h
      exact portWF_of_parse hpp rfl
  · simp at h

theorem parseHostPort_ok {sc l : Chars} {h : Chars} {po : Option Nat}
    (hok : parseHostPort sc l = .ok (h, po)) :
    (∀ c ∈ h, c.toNat < 97 → c ∈ l) ∧
    ((∃ inside, h = '[' :: inside ++ [']'] ∧ ∀ c ∈ inside, c ≠ ']') ∨
     ((∀ t, h ≠ '[' :: t) ∧ (∀ c ∈ h, c ≠ ':') ∧ lowerChars h = h)) ∧
    PortWF sc po := by
  unfold parseHostPort at hok
  split at hok
  · next rest =>
    split at hok
    · simp at hok
    · next inside after heq =>
      obtain ⟨hrest, hfree⟩ := splitAtFirst_eq_some heq
      split at hok
      · simp at hok
      · next po' hpt =>
        simp only [Except.ok.injEq, Prod.mk.injEq] at hok
        obtain ⟨rfl, rfl⟩ := hok
        subst hrest
        refine ⟨?_, Or.inl ⟨inside, rfl, hfree⟩, parsePortTail_ok hpt⟩
        intro c hc _
        simp only [List.cons_append, List.mem_cons, List.mem_append,
          List.mem_singleton] at hc ⊢
        tauto
  · next hnb =>
    have hnb' : ∀ t, l ≠ '[' :: t := fun t habs => by
      rw [habs] at hnb
      exact hnb t rfl
    split at hok
    · next hh heq =>
      simp only [Except.ok.injEq, Prod.mk.injEq] at hok
      obtain ⟨rfl, rfl⟩ := hok
      obtain ⟨rfl, hfree⟩ := splitAtFirst_eq_none heq
      exact ⟨fun c hc hlow => mem_lowerChars_low hc hlow,
        Or.inr ⟨lowerChars_not_bracket hnb',
          fun c hc habs => hfree c (mem_lowerChars_low hc (by rw [habs]; decide)) habs,
          lowerChars_idem _⟩, trivial⟩
    · next hh pstr heq =>
      split at hok
      · simp at hok
      · next port hpp =>
        simp only [Except.ok.injEq, Prod.mk.injEq] at hok
        obtain ⟨rfl, hpo⟩ := hok
        obtain ⟨hl, hfree⟩ := splitAtFirst_eq_some heq
        subst hl
        have hsub : ∀ c ∈ hh, c ∈ hh ++ ':' :: pstr := fun c hc => by simp [hc]
        exact ⟨fun c hc hlow => hsub _ (mem_lowerChars_low hc hlow),
          Or.inr ⟨lowerChars_not_bracket (fun t habs => hnb' (t ++ ':' :: pstr)
              (by rw [habs]; rfl)),
            fun c hc habs => hfree c (mem_lowerChars_low hc (by rw [habs]; decide)) habs,
            lowerChars_idem _⟩, portWF_of_parse hpp hpo⟩

theorem isAlphaChar_toLowerChar {c : Char} (h : isAlphaChar c = true) :
    isAlphaChar (toLowerChar c) = true := by
  have ht := toNat_toLowerChar c
  by_cases hu : 65 ≤ c.toNat ∧ c.toNat ≤ 90
  · rw [if_pos hu] at ht
    simp only [isAlphaChar, decide_eq_true_eq]
    omega
  · rw [toLowerChar_eq_self hu]
    exact h

theorem isSchemeChar_toLowerChar {c : Char} (h : isSchemeChar c = true) :
    isSchemeChar (toLowerChar c) = true := by
  have ht := toNat_toLowerChar c
  by_cases hu : 65 ≤ c.toNat ∧ c.toNat ≤ 90
  · rw [if_pos hu] at ht
    simp only [isSchemeChar, isAlphaChar, Bool.or_eq_true, decide_eq_true_eq]
    left
    left
    left
    left
    omega
  · rw [toLowerChar_eq_self hu]
    exact h

theorem headIsAlpha_lowerChars {l : Chars} (h : headIsAlpha l = true) :
    headIsAlpha (lowerChars l) = true := by
  rcases l with _ | ⟨c, cs⟩
  · simp [headIsAlpha] at h
  · exact isAlphaChar_toLowerChar h

theorem isSchemeChar_elim {c : Char} (h : isSchemeChar c = true) :
    (65 ≤ c.toNat ∧ c.toNat ≤ 90) ∨ (97 ≤ c.toNat ∧ c.toNat ≤ 122) ∨
    (48 ≤ c.toNat ∧ c.toNat ≤ 57) ∨ c = '+' ∨ c = '-' ∨ c = '.' := by
  simp only [isSchemeChar, isAlphaChar, isDigitChar, Bool.or_eq_true, decide_eq_true_eq,
    beq_iff_eq] at h
  tauto

theorem splitScheme_ok {l sc rest : Chars} (h : splitScheme l = some (sc, rest)) :
    SchemeWF sc := by
  unfold splitScheme at h
  split at h
  · next pre r heq =>
    split at h
    · next hcond =>
      simp only [Option.some.injEq, Prod.mk.injEq] at h
      obtain ⟨h1, h2⟩ := h
      subst h1
      subst h2
      obtain ⟨hca, hcb⟩ := hcond
      refine ⟨headIsAlpha_lowerChars hca, ?_, lowerChars_idem pre⟩
      rw [List.all_eq_true] at hcb ⊢
      intro c hc
      obtain ⟨d, hd, rfl⟩ := List.mem_map.mp hc
      exact isSchemeChar_toLowerChar (hcb d hd)
    · simp at h
  · simp at h

theorem parseAuthority_ok {sc auth : Chars} {a : Authority}
    (hok : parseAuthority sc auth = .ok a) :
    UserinfoWF a.username a.password ∧
    (∀ c ∈ a.host, c.toNat < 97 → c ∈ auth) ∧
    ((∃ inside, a.host = '[' :: inside ++ [']'] ∧ ∀ c ∈ inside, c ≠ ']') ∨
     ((∀ t, a.host ≠ '[' :: t) ∧ (∀ c ∈ a.host, c ≠ ':') ∧
       lowerChars a.host = a.host)) ∧
    PortWF sc a.port ∧
    (∀ c ∈ a.host, c ≠ '@') := by
  have huser : ∀ us : Chars, ∀ c ∈ encodeWith userinfoSet us, userinfoSet c = false :=
    fun us => encodeWith_closed percent_not_in_sets.2.2.2.2.2
      (fun n hn => (hexDigitChar_facts n hn).2.2.2.2.2.2.2.2.2.2.2.2.2)
  unfold parseAuthority at hok
  split at hok
  · next u hp heq =>
    obtain ⟨hauth, hfreeAt⟩ := splitAtLast_eq_some heq
    split at hok
    · simp at hok
    · next h po hhp =>
      obtain ⟨hmem, hshape, hport⟩ := parseHostPort_ok hhp
      split at hok
      · next us heq2 =>
        obtain rfl := (Except.ok.inj hok).symm
        refine ⟨⟨huser us, trivial⟩, ?_, hshape, hport,
          fun c hc habs => hfreeAt c (hmem c hc (by rw [habs]; decide)) habs⟩
        intro c hc hlow
        rw [hauth]
        simp only [List.mem_append, List.mem_cons]
        exact Or.inr (Or.inr (hmem c hc hlow))
      · next us pw heq2 =>
        obtain rfl := (Except.ok.inj hok).symm
        refine ⟨⟨huser us, huser pw⟩, ?_, hshape, hport,
          fun c hc habs => hfreeAt c (hmem c hc (by rw [habs]; decide)) habs⟩
        intro c hc hlow
        rw [hauth]
        simp only [List.mem_append, List.mem_cons]
        exact Or.inr (Or.inr (hmem c hc hlow))
  · next heq =>
    split at hok
    · simp at hok
    · next h po hhp =>
      obtain ⟨hmem, hshape, hport⟩ := parseHostPort_ok hhp
      obtain rfl := (Except.ok.inj hok).symm
      exact ⟨⟨by simp, trivial⟩, fun c hc hlow => hmem c hc hlow, hshape, hport,
        fun c hc habs =>
          splitAtLast_eq_none heq c (hmem c hc (by rw [habs]; decide)) habs⟩

theorem splitAtFirst_parts {sep : Char} {l a : Chars} {o : Option Chars}
    (h : splitAtFirst sep l = (a, o)) : (∀ c ∈ a, c ≠ sep) ∧ a ⊆ l := by
  rcases o with _ | r
  · obtain ⟨rfl, hfree⟩ := splitAtFirst_eq_none h
    exact ⟨hfree, fun _ hc => hc⟩
  · obtain ⟨rfl, hfree⟩ := splitAtFirst_eq_some h
    exact ⟨hfree, fun _ hc => List.mem_append_left _ hc⟩

theorem mem_ensureLeadingSlash {l : Chars} {c : Char} (h : c ∈ ensureLeadingSlash l) :
    c = '/' ∨ c ∈ l := by
  unfold ensureLeadingSlash at h
  split at h
  · exact Or.inr h
  · rcases List.mem_cons.mp h with rfl | hh
    · exact Or.inl rfl
    · exact Or.inr hh

theorem utf8Bytes_ne_nil (n : Nat) : utf8Bytes n ≠ [] := by
  unfold utf8Bytes
  split_ifs <;> simp

theorem encodeChar_shape (S : Char → Bool) (c : Char) :
    encodeChar S c = [c] ∨ ∃ r, encodeChar S c = '%' :: r := by
  unfold encodeChar
  split
  · right
    rcases hb : utf8Bytes c.toNat with _ | ⟨b, bs⟩
    · exact absurd hb (utf8Bytes_ne_nil _)
    · exact ⟨hexDigitChar (b / 16) :: hexDigitChar (b % 16) ::
        (bs.map percentEncodeByte).flatten, rfl⟩
  · exact Or.inl rfl

theorem encodeWith_head_ne {S : Char → Bool} {l : Chars} (hl : ∀ t, l ≠ '/' :: t) :
    ∀ t, encodeWith S l ≠ '/' :: t := by
  rcases l with _ | ⟨c, cs⟩
  · intro t
    simp [encodeWith]
  · have hc : c ≠ '/' := fun habs => hl cs (by rw [habs])
    intro t habs
    rw [encodeWith_cons] at habs
    rcases encodeChar_shape S c with hsh | ⟨r, hsh⟩
    · rw [hsh] at habs
      exact hc (List.cons.inj habs).1
    · rw [hsh] at habs
      exact absurd (List.cons.inj habs).1 (by decide)

theorem segsWF_false (X : Chars) : SegsWF false (parsePathSegsChars X) := by
  intro l hl c hc
  obtain ⟨h1, h2⟩ := parsePathSegsChars_ok X l hl c hc
  exact ⟨h1, h2, fun habs => absurd habs (by decide)⟩

theorem optWF_map {S : Char → Bool} (hpc : S '%' = false)
    (hhex : ∀ n, n < 16 → S (hexDigitChar n) = false) (o : Option Chars) :
    OptWF S (o.map (encodeWith S)) := by
  rcases o with _ | l
  · trivial
  · exact encodeWith_closed hpc hhex

theorem hostWF_of_auth {sp : Bool} {auth h : Chars}
    (hmem : ∀ c ∈ h, c.toNat < 97 → c ∈ auth)
    (hshape : (∃ inside, h = '[' :: inside ++ [']'] ∧ ∀ c ∈ inside, c ≠ ']') ∨
      ((∀ t, h ≠ '[' :: t) ∧ (∀ c ∈ h, c ≠ ':') ∧ lowerChars h = h))
    (hat : ∀ c ∈ h, c ≠ '@')
    (hauth : ∀ c ∈ auth, c ≠ '/' ∧ c ≠ '?' ∧ c ≠ '#' ∧ (sp = true → c ≠ '\\')) :
    HostWF sp h := by
  refine ⟨?_, hshape⟩
  intro c hc
  refine ⟨?_, ?_, ?_, hat c hc, ?_⟩
  · intro habs
    subst habs
    exact (hauth _ (hmem _ hc (by decide))).1 rfl
  · intro habs
    subst habs
    exact (hauth _ (hmem _ hc (by decide))).2.1 rfl
  · intro habs
    subst habs
    exact (hauth _ (hmem _ hc (by decide))).2.2.1 rfl
  · intro hsp habs
    subst habs
    exact (hauth _ (hmem _ hc (by decide))).2.2.2 hsp rfl

theorem beforeQuery_facts {sp : Bool} {rest beforeFrag bq1 : Chars}
    {o1 o2 : Option Chars}
    (hbf : splitAtFirst '#' rest = (beforeFrag, o1))
    (hbq : splitAtFirst '?' beforeFrag = (bq1, o2)) :
    ∀ c ∈ replaceBackslashes sp bq1, c ≠ '?' ∧ c ≠ '#' ∧ (sp = true → c ≠ '\\') := by
  obtain ⟨hfree1, hsub1⟩ := splitAtFirst_parts hbf
  obtain ⟨hfree2, hsub2⟩ := splitAtFirst_parts hbq
  intro c hc
  have hbs : sp = true → c ≠ '\\' := fun hsp => by
    subst hsp
    exact replaceBackslashes_no_bs c hc
  rcases mem_replaceBackslashes hc with rfl | hc2
  · exact ⟨by decide, by decide, hbs⟩
  · exact ⟨hfree2 c hc2, hfree1 c (hsub2 hc2), hbs⟩

theorem parsePathSegsChars_cons_ne_nil (c : Char) (rest : Chars) :
    parsePathSegsChars (c :: rest) ≠ [] := by
  unfold parsePathSegsChars
  intro habs
  rw [List.map_eq_nil_iff] at habs
  exact splitOnChar_ne_nil _ _ habs

theorem hostWF_nil (sp : Bool) : HostWF sp [] :=
  ⟨by simp, Or.inr ⟨fun t => by simp, by simp, rfl⟩⟩

theorem userinfoWF_nil : UserinfoWF [] none :=
  ⟨by simp, trivial⟩

theorem optWF_query_special {sc : Chars} (hsp : isSpecialScheme sc = true)
    (o : Option Chars) :
    OptWF (if isSpecialScheme sc = true then specialQuerySet else querySet)
      (o.map (encodeWith specialQuerySet)) := by
  rw [if_pos hsp]
  exact optWF_map percent_not_in_sets.2.2.1
    (fun n hn => (hexDigitChar_facts n hn).2.2.2.2.2.2.2.2.2.2.1) o

theorem optWF_query_plain {sc : Chars} (hsp : isSpecialScheme sc = false)
    (o : Option Chars) :
    OptWF (if isSpecialScheme sc = true then specialQuerySet else querySet)
      (o.map (encodeWith querySet)) := by
  rw [hsp]
  exact optWF_map percent_not_in_sets.2.1
    (fun n hn => (hexDigitChar_facts n hn).2.2.2.2.2.2.2.2.2.1) o

/-- Every URL value the parser returns is well-formed. -/
theorem parse_wf {s : String} {u : Url} (h : parseUrl s = .ok u) : UrlWF u := by
  unfold parseUrl at h
  rcases hsc : splitScheme s.data with _ | ⟨sc, rest⟩
  · rw [hsc] at h
    simp at h
  rw [hsc] at h
  have hscheme : SchemeWF sc := splitScheme_ok hsc
  dsimp only at h
  rcases hbf : splitAtFirst '#' rest with ⟨beforeFrag, frag⟩
  rw [hbf] at h
  dsimp only at h
  rcases hbq : splitAtFirst '?' beforeFrag with ⟨bq1, query⟩
  rw [hbq] at h
  dsimp only at h
  have bfacts : ∀ c ∈ replaceBackslashes (isSpecialScheme sc) bq1,
      c ≠ '?' ∧ c ≠ '#' ∧ (isSpecialScheme sc = true → c ≠ '\\') :=
    beforeQuery_facts hbf hbq
  have hfr : OptWF fragmentSet (frag.map (encodeWith fragmentSet)) :=
    optWF_map percent_not_in_sets.2.2.2.1
      (fun n hn => (hexDigitChar_facts n hn).2.2.2.2.2.2.2.2.2.2.2.1) frag
  by_cases hsp : isSpecialScheme sc = true
  · rw [if_pos hsp] at h
    by_cases hfile : sc = "file".data
    · rw [if_pos hfile] at h
      split at h
      · next rest2 heq =>
        rcases hap : splitAuthPath rest2 with ⟨auth, pathPart⟩
        rw [hap] at h
        dsimp only at h
        rcases hpa : parseAuthority sc auth with e | a
        · rw [hpa] at h
          simp at h
        rw [hpa] at h
        dsimp only at h
        obtain rfl := Except.ok.inj h
        obtain ⟨hui, hmem, hshape, hport, hat⟩ := parseAuthority_ok hpa
        obtain ⟨hr2, hauthfree, -⟩ := splitAuthPath_eq hap
        have hsubB : ∀ c, c ∈ auth ++ pathPart →
            c ∈ replaceBackslashes (isSpecialScheme sc) bq1 := by
          intro c hc
          rw [← hr2] at hc
          rw [heq]
          exact List.mem_cons_of_mem _ (List.mem_cons_of_mem _ hc)
        have hauth2 : ∀ c ∈ auth, c ≠ '/' ∧ c ≠ '?' ∧ c ≠ '#' ∧
            (isSpecialScheme sc = true → c ≠ '\\') := by
          intro c hc
          obtain ⟨h1, h2, h3⟩ := bfacts c (hsubB c (List.mem_append_left _ hc))
          exact ⟨hauthfree c hc, h1, h2, h3⟩
        have hppbs : ∀ c ∈ pathPart, c ≠ '\\' :=
          fun c hc => (bfacts c (hsubB c (List.mem_append_right _ hc))).2.2 hsp
        refine ⟨hscheme, ?_, hfr, hostWF_of_auth hmem hshape hat hauth2, hui, hport,
          _, rfl, segsWF_normalize (segsWF_of_no_backslash hppbs),
          fun _ => ⟨?_, Or.inl hfile⟩⟩
        · dsimp only
          rw [if_pos hsp]
          exact optWF_map percent_not_in_sets.2.2.1
            (fun n hn => (hexDigitChar_facts n hn).2.2.2.2.2.2.2.2.2.2.1) query
        · split
          · simp
          · next hne => exact hne
      all_goals
        obtain rfl := Except.ok.inj h
        have hbs2 : ∀ c ∈ ensureLeadingSlash (replaceBackslashes (isSpecialScheme sc) bq1),
            c ≠ '\\' := by
          intro c hc
          rcases mem_ensureLeadingSlash hc with rfl | hc2
          · decide
          · exact (bfacts c hc2).2.2 hsp
        refine ⟨hscheme, ?_, hfr, hostWF_nil _, userinfoWF_nil, trivial,
          _, rfl, segsWF_normalize (segsWF_of_no_backslash hbs2),
          fun _ => ⟨?_, Or.inl hfile⟩⟩
        · dsimp only
          rw [if_pos hsp]
          exact optWF_map percent_not_in_sets.2.2.1
            (fun n hn => (hexDigitChar_facts n hn).2.2.2.2.2.2.2.2.2.2.1) query
        · split
          · simp
          · next hne => exact hne
    · rw [if_neg hfile] at h
      rcases hap : splitAuthPath
          ((replaceBackslashes (isSpecialScheme sc) bq1).dropWhile (· = '/')) with
        ⟨auth, pathPart⟩
      rw [hap] at h
      dsimp only at h
      rcases hpa : parseAuthority sc auth with e | a
      · rw [hpa] at h
        simp at h
      rw [hpa] at h
      dsimp only at h
      split at h
      · simp at h
      next hhne =>
      obtain rfl := Except.ok.inj h
      obtain ⟨hui, hmem, hshape, hport, hat⟩ := parseAuthority_ok hpa
      obtain ⟨hr2, hauthfree, -⟩ := splitAuthPath_eq hap
      have hsubB : ∀ c, c ∈ auth ++ pathPart →
          c ∈ replaceBackslashes (isSpecialScheme sc) bq1 := by
        intro c hc
        rw [← hr2] at hc
        exact List.dropWhile_subset _ hc
      have hauth2 : ∀ c ∈ auth, c ≠ '/' ∧ c ≠ '?' ∧ c ≠ '#' ∧
          (isSpecialScheme sc = true → c ≠ '\\') := by
        intro c hc
        obtain ⟨h1, h2, h3⟩ := bfacts c (hsubB c (List.mem_append_left _ hc))
        exact ⟨hauthfree c hc, h1, h2, h3⟩
      have hppbs : ∀ c ∈ pathPart, c ≠ '\\' :=
        fun c hc => (bfacts c (hsubB c (List.mem_append_right _ hc))).2.2 hsp
      refine ⟨hscheme, ?_, hfr, hostWF_of_auth hmem hshape hat hauth2, hui, hport,
        _, rfl, segsWF_normalize (segsWF_of_no_backslash hppbs),
        fun _ => ⟨?_, Or.inr hhne⟩⟩
      · dsimp only
        rw [if_pos hsp]
        exact optWF_map percent_not_in_sets.2.2.1
          (fun n hn => (hexDigitChar_facts n hn).2.2.2.2.2.2.2.2.2.2.1) query
      · split
        · simp
        · next hne => exact hne
  · rw [if_neg hsp] at h
    have hspf : isSpecialScheme sc = false := by
      cases hb : isSpecialScheme sc
      · rfl
      · exact absurd hb hsp
    split at h
    · next rest2 heq =>
      rcases hap : splitAuthPath rest2 with ⟨auth, pathPart⟩
      rw [hap] at h
      dsimp only at h
      rcases hpa : parseAuthority sc auth with e | a
      · rw [hpa] at h
        simp at h
      rw [hpa] at h
      dsimp only at h
      obtain rfl := Except.ok.inj h
      obtain ⟨hui, hmem, hshape, hport, hat⟩ := parseAuthority_ok hpa
      obtain ⟨hr2, hauthfree, -⟩ := splitAuthPath_eq hap
      have hsubB : ∀ c, c ∈ auth ++ pathPart →
          c ∈ replaceBackslashes (isSpecialScheme sc) bq1 := by
        intro c hc
        rw [← hr2] at hc
        rw [heq]
        exact List.mem_cons_of_mem _ (List.mem_cons_of_mem _ hc)
      have hauth2 : ∀ c ∈ auth, c ≠ '/' ∧ c ≠ '?' ∧ c ≠ '#' ∧
          (isSpecialScheme sc = true → c ≠ '\\') := by
        intro c hc
        obtain ⟨h1, h2, h3⟩ := bfacts c (hsubB c (List.mem_append_left _ hc))
        exact ⟨hauthfree c hc, h1, h2, h3⟩
      refine ⟨hscheme, ?_, hfr, hostWF_of_auth hmem hshape hat hauth2, hui, hport,
        _, rfl, ?_, fun hs => absurd hs hsp⟩
      · dsimp only
        rw [if_neg hsp]
        exact optWF_map percent_not_in_sets.2.1
          (fun n hn => (hexDigitChar_facts n hn).2.2.2.2.2.2.2.2.2.1) query
      · show SegsWF (isSpecialScheme sc) _
        rw [hspf]
        exact segsWF_false _
    · next tail hno heq =>
      obtain rfl := Except.ok.inj h
      refine ⟨hscheme, ?_, hfr, rfl, rfl, rfl, hspf, segsWF_false _, ?_, ?_⟩
      · dsimp only
        rw [if_neg hsp]
        exact optWF_map percent_not_in_sets.2.1
          (fun n hn => (hexDigitChar_facts n hn).2.2.2.2.2.2.2.2.2.1) query
      · rw [heq]
        exact parsePathSegsChars_cons_ne_nil _ _
      · rcases tail with _ | ⟨c2, cs2⟩
        · left
          rw [heq]
          decide
        · have hc2 : c2 ≠ '/' := fun habs => hno cs2 (by rw [habs])
          rcases hso : splitOnChar '/' cs2 with _ | ⟨x0, rest0⟩
          · exact absurd hso (splitOnChar_ne_nil _ _)
          · refine Or.inr ⟨encodeWith pathSet (c2 :: x0),
              rest0.map (encodeWith pathSet), ?_, encodeWith_ne_nil (by simp)⟩
            rw [heq]
            show (splitOnChar '/' (c2 :: cs2)).map (encodeWith pathSet) = _
            rw [splitOnChar_cons_of_ne hc2 hso]
            rfl
    · next hno heq =>
      obtain rfl := Except.ok.inj h
      refine ⟨hscheme, ?_, hfr, rfl, rfl, rfl, hspf, ?_, ?_⟩
      · dsimp only
        rw [if_neg hsp]
        exact optWF_map percent_not_in_sets.2.1
          (fun n hn => (hexDigitChar_facts n hn).2.2.2.2.2.2.2.2.2.1) query
      · intro c hc
        refine ⟨encodeWith_closed percent_not_in_sets.2.2.2.2.1
          (fun n hn => (hexDigitChar_facts n hn).2.2.2.2.2.2.2.2.2.2.2.2.1) c hc, ?_, ?_⟩
        · rcases mem_encodeWith hc with ⟨hm, -⟩ | rfl | ⟨n, hn, rfl⟩
          · exact (bfacts c hm).1
          · decide
          · exact (hexDigitChar_facts n hn).2.2.2.2.2.2.1
        · rcases mem_encodeWith hc with ⟨hm, -⟩ | rfl | ⟨n, hn, rfl⟩
          · exact (bfacts c hm).2.1
          · decide
          · exact (hexDigitChar_facts n hn).2.2.2.2.2.1
      · exact encodeWith_head_ne heq

/-- Re-parsing the serialization of a well-formed segment list restores it. -/
theorem parsePathSegs_roundtrip : ∀ {segs : List Chars}, segs ≠ [] →
    (∀ l ∈ segs, ∀ c ∈ l, pathSet c = false ∧ c ≠ '/') →
    parsePathSegsChars ((segs.map (fun s => '/' :: s)).flatten) = segs
  | [], h, _ => absurd rfl h
  | [s], _, hwf => by
      show (splitOnChar '/' (s ++ [])).map (encodeWith pathSet) = [s]
      rw [List.append_nil,
        splitOnChar_of_not_mem (fun c hc => (hwf s (by simp) c hc).2),
        List.map_singleton, encodeWith_id (fun c hc => (hwf s (by simp) c hc).1)]
  | s :: s2 :: rest, _, hwf => by
      have ih : parsePathSegsChars (((s2 :: rest).map (fun t => '/' :: t)).flatten) =
          s2 :: rest :=
        parsePathSegs_roundtrip (by simp)
          (fun l hl c hc => hwf l (List.mem_cons_of_mem _ hl) c hc)
      show (splitOnChar '/'
          (s ++ '/' :: (s2 ++ (rest.map (fun t => '/' :: t)).flatten))).map
            (encodeWith pathSet) = s :: s2 :: rest
      rw [splitOnChar_append _ (fun c hc => (hwf s (by simp) c hc).2), List.map_cons,
        encodeWith_id (fun c hc => (hwf s (by simp) c hc).1)]
      exact congrArg (fun t => s :: t) ih

theorem pathChars_concat (segs : List Chars) :
    ((segs ++ [[]]).map (fun s => '/' :: s)).flatten =
      (segs.map (fun s => '/' :: s)).flatten ++ ['/'] := by
  rw [List.map_append, List.flatten_append]
  rfl

theorem pathChars_cons (segs : List Chars) (h : segs ≠ []) :
    ∃ t, (segs.map (fun s => '/' :: s)).flatten = '/' :: t := by
  rcases segs with _ | ⟨s, rest⟩
  · exact absurd rfl h
  · exact ⟨s ++ (rest.map (fun s => '/' :: s)).flatten, rfl⟩

theorem segsWF_chars {sp : Bool} {segs : List Chars} (hwf : SegsWF sp segs) :
    ∀ c ∈ (segs.map (fun s => '/' :: s)).flatten,
      (c = '/' ∨ (pathSet c = false ∧ c ≠ '/')) ∧ (sp = true → c ≠ '\\') := by
  intro c hc
  rw [List.mem_flatten] at hc
  obtain ⟨piece, hp, hcp⟩ := hc
  obtain ⟨l, hl, rfl⟩ := List.mem_map.mp hp
  rcases List.mem_cons.mp hcp with rfl | hcl
  · exact ⟨Or.inl rfl, fun _ => by decide⟩
  · obtain ⟨h1, h2, h3⟩ := hwf l hl c hcl
    exact ⟨Or.inr ⟨h1, h2⟩, h3⟩

theorem replaceBackslashes_id_cond {sp : Bool} {l : Chars}
    (h : sp = true → ∀ c ∈ l, c ≠ '\\') : replaceBackslashes sp l = l := by
  unfold replaceBackslashes
  split
  · next hsp =>
    rw [List.map_congr_left fun c hc => if_neg (h hsp c hc)]
    exact List.map_id' l
  · rfl

/-- On a hierarchical URL whose segments are well-formed, `add_trailing_slash`
appends one empty segment when the path does not end in `/`, and is the
identity otherwise. -/
theorem add_trailing_slash_path {u : Url} {segs : List Chars}
    (hpath : u.path = .segments segs)
    (hwf : SegsWF (isSpecialScheme u.scheme) segs) :
    (add_trailing_slash u).path =
      .segments (if endsWithSlash u.path.chars then segs else segs ++ [[]]) := by
  unfold add_trailing_slash
  by_cases hend : endsWithSlash u.path.chars = true
  · rw [if_neg (by simp [hend]), if_pos hend]
    exact hpath
  · rw [if_pos hend, if_neg hend]
    have hchars : u.path.chars = (segs.map (fun s => '/' :: s)).flatten := by
      rw [hpath]
      rfl
    have hrb : replaceBackslashes (isSpecialScheme u.scheme)
        ((segs.map (fun s => '/' :: s)).flatten ++ ['/']) =
        (segs.map (fun s => '/' :: s)).flatten ++ ['/'] := by
      apply replaceBackslashes_id_cond
      intro hsp c hc
      rcases List.mem_append.mp hc with hc1 | hc2
      · exact (segsWF_chars hwf c hc1).2 hsp
      · simp only [List.mem_singleton] at hc2
        subst hc2
        decide
    have hel : ensureLeadingSlash ((segs.map (fun s => '/' :: s)).flatten ++ ['/']) =
        (segs.map (fun s => '/' :: s)).flatten ++ ['/'] := by
      rcases segs with _ | ⟨s, rest⟩
      · rfl
      · rfl
    have hrt : parsePathSegsChars ((segs.map (fun s => '/' :: s)).flatten ++ ['/']) =
        segs ++ [[]] := by
      rw [← pathChars_concat]
      apply parsePathSegs_roundtrip (by simp)
      intro l hl c hc
      rcases List.mem_append.mp hl with hl1 | hl2
      · obtain ⟨h1, h2, -⟩ := hwf l hl1 c hc
        exact ⟨h1, h2⟩
      · simp only [List.mem_singleton] at hl2
        subst hl2
        simp at hc
    unfold Url.set_path
    rw [setPathChars_segments hpath]
    dsimp only
    rw [hchars, hrb, hel, hrt]

theorem urlWF_segsWF {u : Url} {segs : List Chars} (hwf : UrlWF u)
    (hpath : u.path = .segments segs) : SegsWF (isSpecialScheme u.scheme) segs := by
  obtain ⟨-, -, -, h4⟩ := hwf
  rcases hh : u.host with _ | hst
  · rw [hh] at h4
    dsimp only at h4
    obtain ⟨-, -, -, hns, hp⟩ := h4
    rw [hpath] at hp
    dsimp only at hp
    rw [hns]
    exact hp.1
  · rw [hh] at h4
    dsimp only at h4
    obtain ⟨-, -, -, segs2, hp2, hwf2, -⟩ := h4
    rw [hpath] at hp2
    obtain rfl := UrlPath.segments.inj hp2
    exact hwf2

/-- C4: for every string that parses to a base-capable URL value, the
`BaseUrl` construction succeeds and yields that URL with `/` appended to its
path when the path did not already end in `/` (and the path unchanged when it
did), leaving scheme, username, password, host, port, query and fragment
unchanged. -/
theorem c4_normalization (s : String) (u : Url) (hp : parseUrl s = .ok u)
    (hbase : u.cannot_be_a_base = false) :
    ∃ b : BaseUrl, BaseUrl.from_str s = .ok b ∧
      b.url.path.chars = (if endsWithSlash u.path.chars then u.path.chars
        else u.path.chars ++ ['/']) ∧
      b.url.scheme = u.scheme ∧ b.url.username = u.username ∧
      b.url.password = u.password ∧ b.url.host = u.host ∧
      b.url.port = u.port ∧ b.url.query = u.query ∧ b.url.fragment = u.fragment := by
  obtain ⟨segs, hsegs⟩ := not_cbab_segments hbase
  have hwfs := urlWF_segsWF (parse_wf hp) hsegs
  have hpath := add_trailing_slash_path hsegs hwfs
  obtain ⟨f1, f2, f3, f4, f5, f6, f7⟩ := add_trailing_slash_fields u
  refine ⟨⟨add_trailing_slash u⟩, from_str_of_ok hp hbase, ?_, f1, f2, f3, f4, f5, f6, f7⟩
  show (add_trailing_slash u).path.chars = _
  rw [hpath]
  by_cases hend : endsWithSlash u.path.chars = true
  · rw [if_pos hend, if_pos hend, hsegs]
  · rw [if_neg hend, if_neg hend]
    show ((segs ++ [[]]).map (fun t => '/' :: t)).flatten = _
    rw [pathChars_concat]
    congr 1
    rw [hsegs]
    rfl

theorem c4_normalization_witness :
    parseUrl "http://example.com" = .ok urlExampleCom ∧
    urlExampleCom.cannot_be_a_base = false ∧
    ∃ b : BaseUrl, BaseUrl.from_str "http://example.com" = .ok b ∧
      b.url.path.chars = (if endsWithSlash urlExampleCom.path.chars
        then urlExampleCom.path.chars else urlExampleCom.path.chars ++ ['/']) ∧
      b.url.scheme = urlExampleCom.scheme ∧ b.url.username = urlExampleCom.username ∧
      b.url.password = urlExampleCom.password ∧ b.url.host = urlExampleCom.host ∧
      b.url.port = urlExampleCom.port ∧ b.url.query = urlExampleCom.query ∧
      b.url.fragment = urlExampleCom.fragment :=
  ⟨by decide, by decide, c4_normalization _ _ (by decide) (by decide)⟩

/-! ### Decimal digit lemmas for the port serialization -/

theorem digitChar_toNat {d : Nat} (hd : d < 10) : (Char.ofNat (48 + d)).toNat = 48 + d :=
  toNat_ofNat_valid (by omega)

theorem digitChar_isDigit {d : Nat} (hd : d < 10) :
    isDigitChar (Char.ofNat (48 + d)) = true := by
  simp only [isDigitChar, digitChar_toNat hd, decide_eq_true_eq]
  omega

theorem digitVal_digitChar {d : Nat} (hd : d < 10) :
    digitVal (Char.ofNat (48 + d)) = d := by
  simp only [digitVal, digitChar_toNat hd]
  omega

theorem natDigitsAux_ne_nil {fuel n : Nat} (h : 0 < fuel) : natDigitsAux fuel n ≠ [] := by
  match fuel with
  | f + 1 =>
    unfold natDigitsAux
    split
    · simp
    · simp

theorem natDigitsAux_digits : ∀ fuel n, n < fuel →
    ∀ c ∈ natDigitsAux fuel n, isDigitChar c = true := by
  intro fuel
  induction fuel with
  | zero => intro n hn; omega
  | succ f ih =>
    intro n hn c hc
    unfold natDigitsAux at hc
    split at hc
    · next h10 =>
      simp only [List.mem_singleton] at hc
      subst hc
      exact digitChar_isDigit h10
    · next h10 =>
      rcases List.mem_append.mp hc with hc1 | hc2
      · exact ih (n / 10) (by omega) c hc1
      · simp only [List.mem_singleton] at hc2
        subst hc2
        exact digitChar_isDigit (Nat.mod_lt _ (by omega))

theorem natDigitsAux_val : ∀ fuel n, n < fuel →
    (natDigitsAux fuel n).foldl (fun a c => 10 * a + digitVal c) 0 = n := by
  intro fuel
  induction fuel with
  | zero => intro n hn; omega
  | succ f ih =>
    intro n hn
    unfold natDigitsAux
    split
    · next h10 =>
      show 10 * 0 + digitVal (Char.ofNat (48 + n)) = n
      rw [digitVal_digitChar h10]
      omega
    · next h10 =>
      rw [List.foldl_append, ih (n / 10) (by omega)]
      show 10 * (n / 10) + digitVal (Char.ofNat (48 + n % 10)) = n
      rw [digitVal_digitChar (Nat.mod_lt _ (by omega))]
      omega

theorem parsePort_natDigits {n : Nat} (hn : n ≤ 65535) :
    parsePortChars (natDigits n) = .ok (some n) := by
  unfold parsePortChars natDigits
  rw [if_neg (natDigitsAux_ne_nil (by omega)),
    if_pos (List.all_eq_true.mpr (natDigitsAux_digits _ _ (by omega))),
    natDigitsAux_val _ _ (by omega), if_pos hn]

theorem digit_ne {c : Char} (h : isDigitChar c = true) :
    c ≠ ':' ∧ c ≠ '/' ∧ c ≠ '@' ∧ c ≠ '#' ∧ c ≠ '?' ∧ c ≠ '\\' ∧ c ≠ ']' ∧ c ≠ '[' := by
  refine ⟨?_, ?_, ?_, ?_, ?_, ?_, ?_, ?_⟩ <;>
    (intro habs; subst habs; exact absurd h (by decide))

/-! ### Re-parsing a serialized URL -/

theorem ne_of_set {S : Char → Bool} {c x : Char} (h1 : S c = false) (h2 : S x = true) :
    c ≠ x := by
  intro habs
  subst habs
  rw [h1] at h2
  exact Bool.false_ne_true h2

theorem mem_optPart {sep : Char} {o : Option Chars} {c : Char} (hc : c ∈ optPart sep o) :
    c = sep ∨ ∃ v, o = some v ∧ c ∈ v := by
  rcases o with _ | v
  · simp [optPart] at hc
  · rcases List.mem_cons.mp hc with rfl | hh
    · exact Or.inl rfl
    · exact Or.inr ⟨v, rfl, hh⟩

theorem mem_portPart {po : Option Nat} {c : Char} (hc : c ∈ portPart po) :
    c = ':' ∨ isDigitChar c = true := by
  rcases po with _ | n
  · simp [portPart] at hc
  · rcases List.mem_cons.mp hc with rfl | hh
    · exact Or.inl rfl
    · exact Or.inr (natDigitsAux_digits _ _ (by omega) c hh)

theorem mem_userinfoPart {user : Chars} {pass : Option Chars} {c : Char}
    (hui : UserinfoWF user pass) (hc : c ∈ userinfoPart user pass) :
    userinfoSet c = false ∨ c = ':' ∨ c = '@' := by
  unfold userinfoPart at hc
  split at hc
  · simp at hc
  · rcases List.mem_append.mp hc with hc1 | hc2
    · rcases List.mem_append.mp hc1 with hc3 | hc4
      · exact Or.inl (hui.1 c hc3)
      · rcases mem_optPart hc4 with rfl | ⟨v, hv, hcv⟩
        · exact Or.inr (Or.inl rfl)
        · left
          have h2 := hui.2
          rw [hv] at h2
          dsimp only at h2
          exact h2 c hcv
    · simp only [List.mem_singleton] at hc2
      subst hc2
      exact Or.inr (Or.inr rfl)

theorem splitAtFirst_optPart {sep : Char} {core : Chars} {o : Option Chars}
    (hcore : ∀ c ∈ core, c ≠ sep) :
    splitAtFirst sep (core ++ optPart sep o) = (core, o) := by
  rcases o with _ | v
  · show splitAtFirst sep (core ++ []) = (core, none)
    rw [List.append_nil]
    exact splitAtFirst_of_not_mem hcore
  · exact splitAtFirst_append v hcore

theorem schemeChar_ne_colon {c : Char} (h : isSchemeChar c = true) : c ≠ ':' := by
  intro habs
  subst habs
  exact absurd h (by decide)

theorem splitScheme_serialize {sc r : Chars} (h : SchemeWF sc) :
    splitScheme (sc ++ ':' :: r) = some (sc, r) := by
  obtain ⟨h1, h2, h3⟩ := h
  unfold splitScheme
  rw [splitAtFirst_append r
    (fun c hc => schemeChar_ne_colon (List.all_eq_true.mp h2 c hc))]
  dsimp only
  rw [if_pos ⟨h1, h2⟩, h3]

theorem optWF_map_id {S : Char → Bool} {o : Option Chars} (h : OptWF S o) :
    o.map (encodeWith S) = o := by
  rcases o with _ | v
  · rfl
  · show some (encodeWith S v) = some v
    rw [encodeWith_id h]

theorem parseHostPort_not_bracket {sc l : Chars} (hl : ∀ t, l ≠ '[' :: t) :
    parseHostPort sc l =
      (match splitAtFirst ':' l with
       | (hh, none) => .ok (lowerChars hh, none)
       | (hh, some p) =>
         match parsePortChars p with
         | .error e => .error e
         | .ok port => .ok (lowerChars hh, elideDefault sc port)) := by
  unfold parseHostPort
  split
  · next rest => exact absurd rfl (hl rest)
  · rfl

theorem parsePortTail_roundtrip {sc : Chars} {po : Option Nat} (hport : PortWF sc po) :
    parsePortTail sc (portPart po) = .ok po := by
  rcases po with _ | n
  · rfl
  · have hred : parsePortTail sc (':' :: natDigits n) =
        (match parsePortChars (natDigits n) with
         | .error e => .error e
         | .ok port => .ok (elideDefault sc port)) := rfl
    show parsePortTail sc (':' :: natDigits n) = .ok (some n)
    rw [hred, parsePort_natDigits hport.1]
    show Except.ok (elideDefault sc (some n)) = .ok (some n)
    unfold elideDefault
    rw [if_neg (fun habs => hport.2 habs.symm)]

theorem parseHostPort_roundtrip {sc h : Chars} {po : Option Nat}
    (hhost : HostWF (isSpecialScheme sc) h) (hport : PortWF sc po) :
    parseHostPort sc (h ++ portPart po) = .ok (h, po) := by
  rcases hhost.2 with ⟨inside, rfl, hin⟩ | ⟨hnb, hcl, hlow⟩
  · have hred : parseHostPort sc ('[' :: ((inside ++ [']']) ++ portPart po)) =
        (match splitAtFirst ']' ((inside ++ [']']) ++ portPart po) with
         | (_, none) => .error .InvalidIpv6Address
         | (i, some a) =>
           match parsePortTail sc a with
           | .error e => .error e
           | .ok p => .ok ('[' :: i ++ [']'], p)) := rfl
    show parseHostPort sc ('[' :: ((inside ++ [']']) ++ portPart po)) = _
    rw [hred, show (inside ++ [']']) ++ portPart po = inside ++ ']' :: portPart po from
      List.append_assoc .., splitAtFirst_append _ hin]
    dsimp only
    rw [parsePortTail_roundtrip hport]
  · have hl : ∀ t, h ++ portPart po ≠ '[' :: t := by
      rcases h with _ | ⟨c, cs⟩
      · rcases po with _ | n
        · intro t
          simp [portPart]
        · intro t habs
          exact absurd (List.cons.inj habs).1 (by decide)
      · intro t habs
        rw [List.cons_append] at habs
        exact hnb cs (by rw [(List.cons.inj habs).1])
    rw [parseHostPort_not_bracket hl]
    rcases po with _ | n
    · show (match splitAtFirst ':' (h ++ []) with
         | (hh, none) => Except.ok (lowerChars hh, none)
         | (hh, some p) =>
           match parsePortChars p with
           | .error e => .error e
           | .ok port => .ok (lowerChars hh, elideDefault sc port)) = .ok (h, none)
      rw [List.append_nil, splitAtFirst_of_not_mem hcl]
      dsimp only
      rw [hlow]
    · show (match splitAtFirst ':' (h ++ ':' :: natDigits n) with
         | (hh, none) => Except.ok (lowerChars hh, none)
         | (hh, some p) =>
           match parsePortChars p with
           | .error e => .error e
           | .ok port => .ok (lowerChars hh, elideDefault sc port)) = .ok (h, some n)
      rw [splitAtFirst_append _ hcl]
      dsimp only
      rw [parsePort_natDigits hport.1]
      dsimp only
      unfold elideDefault
      rw [if_neg (fun habs => hport.2 habs.symm), hlow]

theorem parseAuthority_roundtrip {sc h user : Chars} {pass : Option Chars} {po : Option Nat}
    (hhost : HostWF (isSpecialScheme sc) h) (hui : UserinfoWF user pass)
    (hport : PortWF sc po) :
    parseAuthority sc ((userinfoPart user pass ++ h) ++ portPart po) =
      .ok ⟨user, pass, h, po⟩ := by
  have hhostat : ∀ c ∈ h ++ portPart po, c ≠ '@' := by
    intro c hc
    rcases List.mem_append.mp hc with hc1 | hc2
    · exact (hhost.1 c hc1).2.2.2.1
    · rcases mem_portPart hc2 with rfl | hd
      · decide
      · exact (digit_ne hd).2.2.1
  have husercolon : ∀ c ∈ user, c ≠ ':' := fun c hc => ne_of_set (hui.1 c hc) (by decide)
  unfold parseAuthority
  by_cases hni : user = [] ∧ pass = none
  · obtain ⟨rfl, rfl⟩ := hni
    rw [show userinfoPart [] none = ([] : Chars) from rfl, List.nil_append,
      splitAtLast_of_not_mem hhostat]
    dsimp only
    rw [parseHostPort_roundtrip hhost hport]
  · rw [show userinfoPart user pass = user ++ optPart ':' pass ++ ['@'] from if_neg hni,
      show ((user ++ optPart ':' pass ++ ['@']) ++ h) ++ portPart po =
        (user ++ optPart ':' pass) ++ '@' :: (h ++ portPart po) from by
          rw [List.append_assoc (user ++ optPart ':' pass ++ ['@']),
            List.append_assoc (user ++ optPart ':' pass) ['@']]
          rfl,
      splitAtLast_append _ hhostat]
    dsimp only
    rw [parseHostPort_roundtrip hhost hport]
    dsimp only
    rcases pass with _ | pw
    · rw [show optPart ':' (none : Option Chars) = ([] : Chars) from rfl, List.append_nil,
        splitAtFirst_of_not_mem husercolon]
      dsimp only
      rw [encodeWith_id hui.1]
    · rw [show optPart ':' (some pw) = ':' :: pw from rfl, splitAtFirst_append pw husercolon]
      dsimp only
      rw [encodeWith_id hui.1, encodeWith_id hui.2]

theorem authority_chars {sp : Bool} {h user : Chars} {pass : Option Chars} {po : Option Nat}
    (hhost : HostWF sp h) (hui : UserinfoWF user pass) :
    ∀ c ∈ (userinfoPart user pass ++ h) ++ portPart po,
      c ≠ '/' ∧ c ≠ '#' ∧ c ≠ '?' ∧ (sp = true → c ≠ '\\') := by
  intro c hc
  rcases List.mem_append.mp hc with hc1 | hc2
  · rcases List.mem_append.mp hc1 with hc3 | hc4
    · rcases mem_userinfoPart hui hc3 with hs | rfl | rfl
      · exact ⟨ne_of_set hs (by decide), ne_of_set hs (by decide),
          ne_of_set hs (by decide), fun _ => ne_of_set hs (by decide)⟩
      · exact ⟨by decide, by decide, by decide, fun _ => by decide⟩
      · exact ⟨by decide, by decide, by decide, fun _ => by decide⟩
    · obtain ⟨h1, h2, h3, h4, h5⟩ := hhost.1 c hc4
      exact ⟨h1, h3, h2, h5⟩
  · rcases mem_portPart hc2 with rfl | hd
    · exact ⟨by decide, by decide, by decide, fun _ => by decide⟩
    · obtain ⟨d1, d2, d3, d4, d5, d6, d7, d8⟩ := digit_ne hd
      exact ⟨d2, d4, d5, fun _ => d6⟩

theorem authority_head {h user : Chars} {pass : Option Chars} {po : Option Nat}
    (hui : UserinfoWF user pass) (hh : h ≠ []) (hslash : ∀ c ∈ h, c ≠ '/') :
    ∃ a0 t, (userinfoPart user pass ++ h) ++ portPart po = a0 :: t ∧ a0 ≠ '/' := by
  by_cases hni : user = [] ∧ pass = none
  · obtain ⟨rfl, rfl⟩ := hni
    rcases h with _ | ⟨c, cs⟩
    · exact absurd rfl hh
    · refine ⟨c, cs ++ portPart po, ?_, hslash c (by simp)⟩
      rw [show userinfoPart [] none = ([] : Chars) from rfl, List.nil_append,
        List.cons_append]
  · rcases user with _ | ⟨c, cs⟩
    · rcases pass with _ | pw
      · exact absurd ⟨rfl, rfl⟩ hni
      · refine ⟨':', ((pw ++ ['@']) ++ h) ++ portPart po, ?_, by decide⟩
        rw [show userinfoPart [] (some pw) = ':' :: (pw ++ ['@']) from rfl,
          List.cons_append, List.cons_append]
    · have hcu : userinfoSet c = false := hui.1 c (by simp)
      refine ⟨c, (((cs ++ optPart ':' pass) ++ ['@']) ++ h) ++ portPart po, ?_,
        ne_of_set hcu (by decide)⟩
      rw [show userinfoPart (c :: cs) pass = (c :: cs) ++ optPart ':' pass ++ ['@'] from
          if_neg (by simp), List.cons_append, List.cons_append, List.cons_append,
        List.cons_append]

theorem splitAuthPath_serialize {A PC : Chars} (hA : ∀ c ∈ A, c ≠ '/')
    (hPC : PC = [] ∨ ∃ t, PC = '/' :: t) :
    splitAuthPath (A ++ PC) = (A, PC) := by
  unfold splitAuthPath
  rcases hPC with rfl | ⟨t, rfl⟩
  · rw [List.append_nil, splitAtFirst_of_not_mem hA]
  · rw [splitAtFirst_append t hA]

theorem dropWhile_slash2 {A : Chars} (hA : ∃ a0 t, A = a0 :: t ∧ a0 ≠ '/') (PC : Chars) :
    ('/' :: '/' :: (A ++ PC)).dropWhile (· = '/') = A ++ PC := by
  obtain ⟨a0, t, rfl, h0⟩ := hA
  rw [List.dropWhile_cons, if_pos (by decide), List.dropWhile_cons, if_pos (by decide),
    List.cons_append, List.dropWhile_cons, if_neg (by simp [h0])]

theorem segsWF_weaken {sp : Bool} {segs : List Chars} (h : SegsWF sp segs) :
    ∀ l ∈ segs, ∀ c ∈ l, pathSet c = false ∧ c ≠ '/' :=
  fun l hl c hc => ⟨(h l hl c hc).1, (h l hl c hc).2.1⟩

theorem pathChars_roundtrip {segs : List Chars}
    (hwf : ∀ l ∈ segs, ∀ c ∈ l, pathSet c = false ∧ c ≠ '/') :
    parsePathSegsChars (UrlPath.segments segs).chars = segs := by
  rcases segs with _ | ⟨s, rest⟩
  · rfl
  · exact parsePathSegs_roundtrip (by simp) hwf

theorem segsWF_append_nil {sp : Bool} {segs : List Chars} (h : SegsWF sp segs) :
    SegsWF sp (segs ++ [[]]) := by
  intro l hl c hc
  rcases List.mem_append.mp hl with h1 | h2
  · exact h l h1 c hc
  · simp only [List.mem_singleton] at h2
    subst h2
    simp at hc

/-- Parsing the serialization of a well-formed base-capable URL value
restores the value. -/
theorem serialize_parse {u : Url} (hwf : UrlWF u) (hbase : u.cannot_be_a_base = false) :
    parseUrl u.serialize = .ok u := by
  obtain ⟨sc, user, pass, host, po, path, q, fr⟩ := u
  obtain ⟨hscheme, hq, hf, hrest⟩ := hwf
  dsimp only at hscheme hq hf hrest
  have hSq : (if isSpecialScheme sc = true then specialQuerySet else querySet) '#' = true := by
    split
    · decide
    · decide
  rcases host with _ | h
  · dsimp only at hrest
    obtain ⟨hu0, hp0, hpo0, hnsp, hpathm⟩ := hrest
    subst hu0
    subst hp0
    subst hpo0
    rcases path with segs | p
    · dsimp only at hpathm
      obtain ⟨hsegs, hsegne, hshape⟩ := hpathm
      have hPCrt : parsePathSegsChars (UrlPath.segments segs).chars = segs :=
        pathChars_roundtrip (segsWF_weaken hsegs)
      have hPCmem : ∀ c ∈ (UrlPath.segments segs).chars, c ≠ '#' ∧ c ≠ '?' := by
        intro c hc
        obtain ⟨h1, -⟩ := segsWF_chars hsegs c hc
        rcases h1 with rfl | ⟨hps, -⟩
        · exact ⟨by decide, by decide⟩
        · exact ⟨ne_of_set hps (by decide), ne_of_set hps (by decide)⟩
      have hbf_free : ∀ c ∈ (UrlPath.segments segs).chars ++ optPart '?' q, c ≠ '#' := by
        intro c hc
        rcases List.mem_append.mp hc with hc1 | hc2
        · exact (hPCmem c hc1).1
        · rcases mem_optPart hc2 with rfl | ⟨v, hv, hcv⟩
          · decide
          · have h2 := hq
            rw [hv] at h2
            exact ne_of_set (h2 c hcv) hSq
      unfold parseUrl
      rw [show (Url.serialize ⟨sc, [], none, none, none, UrlPath.segments segs, q, fr⟩).data =
          sc ++ ':' :: ((UrlPath.segments segs).chars ++ optPart '?' q ++ optPart '#' fr)
        from rfl]
      rw [splitScheme_serialize hscheme]
      dsimp only
      rw [splitAtFirst_optPart hbf_free]
      dsimp only
      rw [splitAtFirst_optPart (fun c hc => (hPCmem c hc).2)]
      dsimp only
      rw [replaceBackslashes_id_cond
        (fun hsp2 => absurd (hnsp.symm.trans hsp2) (by decide))]
      rw [optWF_map_id hq, optWF_map_id hf]
      rw [if_neg (by rw [hnsp]; exact Bool.false_ne_true)]
      rcases hshape with hseq | ⟨x, xs, hseq, hx⟩
      · subst hseq
        rw [show (UrlPath.segments [([] : Chars)]).chars = ['/'] from rfl]
        split
        · next r2 heq =>
          exact absurd (List.cons.inj heq).2 (by simp)
        · next tail hno heq =>
          rw [show parsePathSegsChars ['/'] = [([] : Chars)] from rfl]
        · next hno1 hno2 =>
          exact absurd rfl (hno2 [])
      · subst hseq
        rcases x with _ | ⟨c0, x0⟩
        · exact absurd rfl hx
        have hc0 : c0 ≠ '/' := (hsegs (c0 :: x0) (by simp) c0 (by simp)).2.1
        rw [show (UrlPath.segments ((c0 :: x0) :: xs)).chars =
            '/' :: c0 :: (x0 ++ (xs.map (fun s => '/' :: s)).flatten) from rfl]
        split
        · next r2 heq =>
          exact absurd (List.cons.inj (List.cons.inj heq).2).1 hc0
        · next tail hno heq =>
          have hPCrt2 : parsePathSegsChars
              ('/' :: c0 :: (x0 ++ (xs.map (fun s => '/' :: s)).flatten)) =
              (c0 :: x0) :: xs := hPCrt
          rw [hPCrt2]
        · next hno1 hno2 =>
          exact absurd rfl (hno2 (c0 :: (x0 ++ (xs.map (fun s => '/' :: s)).flatten)))
    · exact absurd hbase (by simp [Url.cannot_be_a_base])
  · dsimp only at hrest
    obtain ⟨hhost, hui, hport, segs, hpath, hsegs, hspecial⟩ := hrest
    subst hpath
    have hAfacts : ∀ c ∈ (userinfoPart user pass ++ h) ++ portPart po,
        c ≠ '/' ∧ c ≠ '#' ∧ c ≠ '?' ∧ (isSpecialScheme sc = true → c ≠ '\\') :=
      authority_chars hhost hui
    have hPCrt : parsePathSegsChars (UrlPath.segments segs).chars = segs :=
      pathChars_roundtrip (segsWF_weaken hsegs)
    have hPCshape : (UrlPath.segments segs).chars = [] ∨
        ∃ t, (UrlPath.segments segs).chars = '/' :: t := by
      rcases segs with _ | ⟨s, rest⟩
      · exact Or.inl rfl
      · exact Or.inr (pathChars_cons _ (by simp))
    have hPCmem : ∀ c ∈ (UrlPath.segments segs).chars,
        c ≠ '#' ∧ c ≠ '?' ∧ (isSpecialScheme sc = true → c ≠ '\\') := by
      intro c hc
      obtain ⟨h1, h2⟩ := segsWF_chars hsegs c hc
      rcases h1 with rfl | ⟨hps, -⟩
      · exact ⟨by decide, by decide, h2⟩
      · exact ⟨ne_of_set hps (by decide), ne_of_set hps (by decide), h2⟩
    have hcore : ∀ c ∈ ('/' :: '/' :: ((userinfoPart user pass ++ h) ++ portPart po)) ++
        (UrlPath.segments segs).chars,
        c ≠ '#' ∧ c ≠ '?' ∧ (isSpecialScheme sc = true → c ≠ '\\') := by
      intro c hc
      rcases List.mem_append.mp hc with hc1 | hc2
      · rcases List.mem_cons.mp hc1 with rfl | hc3
        · exact ⟨by decide, by decide, fun _ => by decide⟩
        · rcases List.mem_cons.mp hc3 with rfl | hc4
          · exact ⟨by decide, by decide, fun _ => by decide⟩
          · obtain ⟨a1, a2, a3, a4⟩ := hAfacts c hc4
            exact ⟨a2, a3, a4⟩
      · exact hPCmem c hc2
    have hbf_free : ∀ c ∈ (('/' :: '/' :: ((userinfoPart user pass ++ h) ++ portPart po)) ++
        (UrlPath.segments segs).chars) ++ optPart '?' q, c ≠ '#' := by
      intro c hc
      rcases List.mem_append.mp hc with hc1 | hc2
      · exact (hcore c hc1).1
      · rcases mem_optPart hc2 with rfl | ⟨v, hv, hcv⟩
        · decide
        · have h2 := hq
          rw [hv] at h2
          exact ne_of_set (h2 c hcv) hSq
    unfold parseUrl
    rw [show (Url.serialize ⟨sc, user, pass, some h, po, UrlPath.segments segs, q, fr⟩).data =
        sc ++ ':' :: ((('/' :: '/' :: ((userinfoPart user pass ++ h) ++ portPart po)) ++
          (UrlPath.segments segs).chars ++ optPart '?' q) ++ optPart '#' fr) from rfl]
    rw [splitScheme_serialize hscheme]
    dsimp only
    rw [splitAtFirst_optPart hbf_free]
    dsimp only
    rw [splitAtFirst_optPart (fun c hc => (hcore c hc).2.1)]
    dsimp only
    rw [replaceBackslashes_id_cond (fun hsp c hc => (hcore c hc).2.2 hsp)]
    rw [optWF_map_id hq, optWF_map_id hf]
    by_cases hsp : isSpecialScheme sc = true
    · rw [if_pos hsp]
      obtain ⟨hsegne, hfileh⟩ := hspecial hsp
      by_cases hfile : sc = "file".data
      · rw [if_pos hfile]
        rw [List.cons_append, List.cons_append]
        split
        · next r2 heq =>
          obtain rfl := (List.cons.inj (List.cons.inj heq).2).2
          rw [splitAuthPath_serialize (fun c hc => (hAfacts c hc).1) hPCshape]
          dsimp only
          rw [parseAuthority_roundtrip hhost hui hport]
          dsimp only
          rw [hPCrt, if_neg hsegne]
        · next hno =>
          exact absurd rfl (hno _)
      · rw [if_neg hfile]
        have hh_ne : h ≠ [] := by
          rcases hfileh with hcf | hne
          · exact absurd hcf hfile
          · exact hne
        rw [List.cons_append, List.cons_append,
          dropWhile_slash2 (authority_head hui hh_ne (fun c hc => (hhost.1 c hc).1))]
        rw [splitAuthPath_serialize (fun c hc => (hAfacts c hc).1) hPCshape]
        dsimp only
        rw [parseAuthority_roundtrip hhost hui hport]
        dsimp only
        rw [if_neg hh_ne]
        rw [hPCrt, if_neg hsegne]
    · rw [if_neg hsp]
      rw [List.cons_append, List.cons_append]
      split
      · next r2 heq =>
        obtain rfl := (List.cons.inj (List.cons.inj heq).2).2
        rw [splitAuthPath_serialize (fun c hc => (hAfacts c hc).1) hPCshape]
        dsimp only
        rw [parseAuthority_roundtrip hhost hui hport]
        dsimp only
        rw [hPCrt]
      · next tail hno heq =>
        exact absurd (List.cons.inj heq).2.symm (fun hh2 => hno _ hh2)
      · next hno1 hno2 =>
        exact absurd rfl (hno1 _)

/-- `add_trailing_slash` preserves well-formedness on base-capable URLs. -/
theorem urlWF_add_trailing_slash {u : Url} (hwf : UrlWF u)
    (hbase : u.cannot_be_a_base = false) : UrlWF (add_trailing_slash u) := by
  obtain ⟨segs, hsegs⟩ := not_cbab_segments hbase
  have hwfs := urlWF_segsWF hwf hsegs
  have hpath := add_trailing_slash_path hsegs hwfs
  obtain ⟨f1, f2, f3, f4, f5, f6, f7⟩ := add_trailing_slash_fields u
  obtain ⟨h1, h2, h3, h4⟩ := hwf
  refine ⟨?_, ?_, ?_, ?_⟩
  · rw [f1]
    exact h1
  · rw [f1, f6]
    exact h2
  · rw [f7]
    exact h3
  · rw [f4, f1, f2, f3, f5, hpath]
    rcases hh : u.host with _ | h
    · rw [hh] at h4
      dsimp only at h4 ⊢
      obtain ⟨hu0, hp0, hpo0, hns, hpathm⟩ := h4
      rw [hsegs] at hpathm
      dsimp only at hpathm
      obtain ⟨hsg, hne, hshape⟩ := hpathm
      refine ⟨hu0, hp0, hpo0, hns, ?_⟩
      by_cases hend : endsWithSlash u.path.chars = true
      · rw [if_pos hend]
        exact ⟨hsg, hne, hshape⟩
      · rw [if_neg hend]
        refine ⟨segsWF_append_nil hsg, by simp, ?_⟩
        rcases hshape with hseq | ⟨x, xs, hseq, hx⟩
        · exfalso
          apply hend
          rw [hsegs]
          subst hseq
          decide
        · subst hseq
          exact Or.inr ⟨x, xs ++ [[]], by rw [List.cons_append], hx⟩
    · rw [hh] at h4
      dsimp only at h4 ⊢
      obtain ⟨hhost, hui, hport, segs2, hp2, hwf2, hsp2⟩ := h4
      rw [hsegs] at hp2
      obtain rfl := UrlPath.segments.inj hp2
      refine ⟨hhost, hui, hport,
        (if endsWithSlash u.path.chars then segs else segs ++ [[]]), rfl, ?_, ?_⟩
      · split
        · exact hwf2
        · exact segsWF_append_nil hwf2
      · intro hsp
        obtain ⟨hne2, hfh⟩ := hsp2 hsp
        refine ⟨?_, hfh⟩
        split
        · exact hne2
        · simp

/-- C8: parsing the string form of a parsed-and-normalized `BaseUrl` yields
an identical value: `parse (to_string (parse u)) = parse u`. -/
theorem c8_roundtrip (s : String) (b : BaseUrl) (h : BaseUrl.from_str s = .ok b) :
    BaseUrl.from_str (BaseUrl.serialize b) = .ok b := by
  obtain ⟨u0, hp, hcb0, hb⟩ := from_str_ok s b h
  have hurl : b.url = add_trailing_slash u0 := by rw [hb]
  have hwf1 : UrlWF b.url := by
    rw [hurl]
    exact urlWF_add_trailing_slash (parse_wf hp) hcb0
  have hb1 : b.url.cannot_be_a_base = false := by
    rw [hurl, cannot_be_a_base_add_trailing_slash]
    exact hcb0
  have hend : endsWithSlash b.url.path.chars = true := by
    rw [hurl]
    exact endsWithSlash_add_trailing_slash hcb0
  have hps : parseUrl b.url.serialize = .ok b.url := serialize_parse hwf1 hb1
  have hres := from_str_of_ok hps hb1
  have hid : add_trailing_slash b.url = b.url := by
    unfold add_trailing_slash
    rw [if_neg (by simp [hend])]
  rw [hid] at hres
  exact hres

theorem c8_roundtrip_witness :
    BaseUrl.from_str "http://example.com" = .ok ⟨add_trailing_slash urlExampleCom⟩ ∧
    BaseUrl.from_str (BaseUrl.serialize ⟨add_trailing_slash urlExampleCom⟩) =
      .ok ⟨add_trailing_slash urlExampleCom⟩ :=
  ⟨by decide, c8_roundtrip "http://example.com" _ (by decide)⟩

end FRU
